import Mathlib

/-!
Verification of the binary-lifting lowest-common-ancestor component
(`src/lca.rs`) of the `rad` repository.

The Rust code is shallowly embedded as follows.

* `usize` values are embedded as `Nat`.  The only `usize`-specific value the
  code relies on is the sentinel `usize::MAX`, embedded as the constant
  `USIZE_MAX = 2 ^ 64 - 1` (the crate targets 64-bit platforms).  No
  arithmetic in the component can overflow for any graph a Rust process can
  hold (`node_count <= usize::MAX`), so plain `Nat` arithmetic coincides with
  `usize` arithmetic on the reachable states; theorems carry the hypothesis
  `nodeCount <= USIZE_MAX`, which is true of every Rust value.
* `petgraph::graph::UnGraph<(), ()>` is embedded as its adjacency-list
  contents: a list of neighbor lists (`UnGraph.adj`), with
  `node_count = adj.length` and `neighbors u = adj.getD u []`.
* Fallible operations (Rust `Vec` indexing, which panics when out of range)
  in the query path are embedded in the `Option` monad: `none` is the image
  of a Rust panic (program abort).  In the construction path (`LCA::new`)
  every index is proven in range under each theorem's hypotheses, where the
  total `getD`/`set` embedding agrees with Rust's panicking indexing; the
  out-of-hypothesis panic cases (`n = 0`, `root >= n`) are discussed with
  claim C2.
-/

/-- The sentinel `usize::MAX` used by `src/lca.rs` for "unset / no ancestor"
(64-bit platform). -/
def USIZE_MAX : Nat := 2 ^ 64 - 1

/-- Embedding of the input type `petgraph::graph::UnGraph<(), ()>`: the
adjacency-list contents of the graph.  `adj` has one entry per vertex, in
vertex order; entry `u` lists the endpoints of the edges incident to `u`
(`graph.neighbors(u)`), in some iteration order.  The component never
depends on the iteration order. -/
structure UnGraph where
  adj : List (List Nat)

/-- Embeds `graph.node_count()`. -/
def UnGraph.nodeCount (g : UnGraph) : Nat := g.adj.length

/-- Embeds `graph.neighbors(u)` as a list. -/
def UnGraph.neighbors (g : UnGraph) (u : Nat) : List Nat := g.adj.getD u []

/-- The struct `LCA { jump_table: Vec<Vec<usize>>, depth: Vec<usize> }`. -/
structure LCA where
  jump_table : List (List Nat)
  depth : List Nat

/-- Loop of `LCA::log2`: `while x < n { x *= 2; count += 1 }; count`.
The source's accumulator `x` always equals `2 ^ count` (it starts at `1`
with `count = 0` and doubles exactly when `count` is incremented), so the
loop is embedded with the accumulator written as that power.  The loop is
metered by structural fuel so that it evaluates inside the kernel;
`LCA.log2` passes fuel `n`, which never runs out: each iteration increases
`2 ^ count` by at least one, so at most `n - 1` iterations happen (the
characterization `log2_ge`/`log2_min` below pins the result to exactly what
the unmetered `while` loop computes). -/
def LCA.log2Go : Nat → Nat → Nat → Nat
  | 0, _, count => count
  | fuel + 1, n, count =>
    if 2 ^ count < n then LCA.log2Go fuel n (count + 1) else count

/-- Embeds `LCA::log2(n)`: base-2 logarithm of `n` rounded up. -/
def LCA.log2 (n : Nat) : Nat := LCA.log2Go n n 0

/-- The inner `for i in 1..levels` loop of the `explore` closure in
`LCA::new`, which fills levels `i, i+1, ..., levels-1` of the jump-table
column of the newly discovered vertex `v`:

    for i in 1..levels {
        let ancestor = lca.jump_table[i - 1][v.index()];
        if ancestor != usize::MAX {
            lca.jump_table[i][v.index()] = lca.jump_table[i - 1][ancestor]
        }
    }

`Vec` writes are embedded by `List.set`; all indices are in range in every
context in which the loop is reached (proven below).  The loop is metered by
structural fuel so that it evaluates inside the kernel; the wrapper
`fillLevelsFrom` passes fuel `levels - i`, exactly the number of iterations
the `for` loop performs. -/
def fillLevelsGo (v : Nat) : Nat → Nat → Nat → List (List Nat) → List (List Nat)
  | 0, _, _, jt => jt
  | fuel + 1, levels, i, jt =>
    if i < levels then
      let ancestor := (jt.getD (i - 1) []).getD v 0
      let jt' :=
        if ancestor ≠ USIZE_MAX then
          jt.set i ((jt.getD i []).set v ((jt.getD (i - 1) []).getD ancestor 0))
        else jt
      fillLevelsGo v fuel levels (i + 1) jt'
    else jt

/-- The `for i in 1..levels` loop starting at index `i` (entered with
`i = 1`). -/
def fillLevelsFrom (v levels i : Nat) (jt : List (List Nat)) : List (List Nat) :=
  fillLevelsGo v (levels - i) levels i jt

/-- Body of the `explore` closure of `LCA::new` for one neighbor `v` of the
vertex `u` being explored: if `v` is undiscovered (`depth[v] == usize::MAX`)
it is appended to `to_explore`, its depth and jump-table column are set. -/
def exploreStep (levels u : Nat) (acc : LCA × List Nat) (v : Nat) : LCA × List Nat :=
  let t := acc.1
  if t.depth.getD v 0 = USIZE_MAX then
    let t' : LCA :=
      { depth := t.depth.set v (t.depth.getD u 0 + 1)
        jump_table :=
          fillLevelsFrom v levels 1
            (t.jump_table.set 0 ((t.jump_table.getD 0 []).set v u)) }
    (t', acc.2 ++ [v])
  else acc

/-- The `explore` closure of `LCA::new`: iterate over `graph.neighbors(u)`,
returning the updated table and the list `to_explore` of newly discovered
vertices, in discovery order. -/
def explore (g : UnGraph) (levels : Nat) (t : LCA) (u : Nat) : LCA × List Nat :=
  (g.neighbors u).foldl (exploreStep levels u) (t, [])

/-- The BFS loop of `LCA::new`:

    loop {
        match queue.pop_front() {
            None => break,
            Some(u) => explore(u).iter().for_each(|&v| queue.push_back(v)),
        }
    }

The `VecDeque` is embedded as a list (`pop_front` = head, `push_back` =
append).  The loop is embedded with explicit fuel to make it structurally
recursive; `LCA.new` passes fuel `node_count + 1`, which is proven below
never to run out (each iteration pops one queue entry, and at most
`node_count` entries are ever enqueued, each enqueue permanently clearing
one `usize::MAX` depth slot). -/
def bfsLoop (g : UnGraph) (levels : Nat) : Nat → LCA → List Nat → LCA
  | 0, t, _ => t
  | _ + 1, t, [] => t
  | fuel + 1, t, u :: rest =>
    let p := explore g levels t u
    bfsLoop g levels fuel p.1 (rest ++ p.2)

/-- Embeds `LCA::new(graph, root)`.  The initial state sets
`jump_table = vec![vec![usize::MAX; n]; levels]`,
`depth = vec![usize::MAX; n]` with `depth[root] = 0`, and runs the BFS from
`root`.  (For `root >= n` or `n = 0` the Rust code panics on
`lca.depth[root.index()] = 0`; the `List.set` embedding makes the write a
no-op there instead.  Every theorem below that touches construction assumes
`root < n`, where the embedding is exact; the behaviour on an out-of-range
root is examined in the analysis of claim C2 only through this comment.) -/
def LCA.new (g : UnGraph) (root : Nat) : LCA :=
  let n := g.nodeCount
  let levels := LCA.log2 n
  let t : LCA :=
    { jump_table := List.replicate levels (List.replicate n USIZE_MAX)
      depth := (List.replicate n USIZE_MAX).set root 0 }
  bfsLoop g levels (n + 1) t [root]

/-- Embedding of a `Vec<usize>` read `l[i]`: `some` of the element when in
range, `none` (= Rust panic, program abort) otherwise. -/
def readV (l : List Nat) (i : Nat) : Option Nat := l.get? i

/-- Embedding of a jump-table read `jump_table[i][u]`. -/
def jtRead (jt : List (List Nat)) (i u : Nat) : Option Nat :=
  (jt.get? i).bind fun row => row.get? u

/-- Loop of `LCA::jump` over the level indices `(0..levels).rev()`,
given as the list argument:

    for i in (0..levels).rev() {
        if u != usize::MAX && (k & (1 << i)) != 0 {
            u = self.jump_table[i][u]
        }
    }

`1 << i` is embedded as `1 <<< i = 2 ^ i`; the shift cannot overflow in
Rust since `i < levels <= 64` whenever `n <= usize::MAX`. -/
def LCA.jumpGo (t : LCA) (k : Nat) : Nat → List Nat → Option Nat
  | u, [] => some u
  | u, i :: is =>
    if u ≠ USIZE_MAX ∧ k &&& (1 <<< i) ≠ 0 then
      (jtRead t.jump_table i u).bind fun u' => LCA.jumpGo t k u' is
    else LCA.jumpGo t k u is

/-- Embeds `LCA::jump(u, k)`: jump upwards `k` steps starting from vertex `u`. -/
def LCA.jump (t : LCA) (u k : Nat) : Option Nat :=
  LCA.jumpGo t k u (List.range t.jump_table.length).reverse

/-- The binary-search loop of `LCA::lca` over `(0..levels).rev()`:

    for i in (0..levels).rev() {
        let pu = self.jump_table[i][u];
        let pv = self.jump_table[i][v];
        if pu != usize::MAX && pv != usize::MAX && pu != pv {
            u = pu;
            v = pv;
        }
    }

Both reads happen before the test, exactly as in the source. -/
def LCA.lcaGo (t : LCA) : Nat → Nat → List Nat → Option (Nat × Nat)
  | u, v, [] => some (u, v)
  | u, v, i :: is =>
    (jtRead t.jump_table i u).bind fun pu =>
    (jtRead t.jump_table i v).bind fun pv =>
    if pu ≠ USIZE_MAX ∧ pv ≠ USIZE_MAX ∧ pu ≠ pv then LCA.lcaGo t pu pv is
    else LCA.lcaGo t u v is

/-- Embeds `LCA::lca(u, v)`.  Mirrors the source line by line: equalize depths
(re-reading `depth[u]`/`depth[v]` for the second comparison, as the source
does), return if the vertices met, otherwise binary-search and return
`jump_table[0][u]`.  Every `Vec` read is through `readV`/`jtRead`, so a
Rust panic is `none`. -/
def LCA.lca (t : LCA) (u v : Nat) : Option Nat :=
  (readV t.depth u).bind fun du0 =>
  (readV t.depth v).bind fun dv0 =>
  (if du0 < dv0 then t.jump v (dv0 - du0) else some v).bind fun v1 =>
  (readV t.depth u).bind fun du1 =>
  (readV t.depth v1).bind fun dv1 =>
  (if du1 > dv1 then t.jump u (du1 - dv1) else some u).bind fun u1 =>
  if u1 = v1 then some u1
  else
    (LCA.lcaGo t u1 v1 (List.range t.jump_table.length).reverse).bind fun p =>
      jtRead t.jump_table 0 p.1

/-! ### List helper lemmas (total `getD`/`set`/`countP` facts used throughout) -/

theorem listGetD_set_self {α : Type} (l : List α) (i : Nat) (a d : α)
    (h : i < l.length) : (l.set i a).getD i d = a := by
  induction l generalizing i with
  | nil => simp at h
  | cons x xs ih =>
    cases i with
    | zero => simp [List.set, List.getD]
    | succ j => simpa [List.set, List.getD] using ih j (by simpa using h)

theorem listGetD_set_ne {α : Type} (l : List α) (i j : Nat) (a d : α)
    (h : i ≠ j) : (l.set i a).getD j d = l.getD j d := by
  induction l generalizing i j with
  | nil => simp [List.set]
  | cons x xs ih =>
    cases i with
    | zero =>
      cases j with
      | zero => exact absurd rfl h
      | succ j' => simp [List.set, List.getD]
    | succ i' =>
      cases j with
      | zero => simp [List.set, List.getD]
      | succ j' => simpa [List.set, List.getD] using ih i' j' (by omega)

theorem listGetD_replicate {α : Type} (n i : Nat) (a d : α) :
    (List.replicate n a).getD i d = if i < n then a else d := by
  induction n generalizing i with
  | zero => simp [List.getD]
  | succ m ih =>
    cases i with
    | zero => simp [List.replicate, List.getD]
    | succ j => simpa [List.replicate, List.getD] using ih j

theorem listGet?_eq_some_getD {α : Type} (l : List α) (i : Nat) (d : α)
    (h : i < l.length) : l.get? i = some (l.getD i d) := by
  induction l generalizing i with
  | nil => simp at h
  | cons x xs ih =>
    cases i with
    | zero => simp [List.getD]
    | succ j => simpa [List.getD] using ih j (by simpa using h)

theorem listCountP_set_flip (l : List Nat) (p : Nat → Bool) (i : Nat) (a : Nat)
    (h : i < l.length) (hold : p (l.getD i 0) = true) (hnew : p a = false) :
    (l.set i a).countP p + 1 = l.countP p := by
  induction l generalizing i with
  | nil => simp at h
  | cons x xs ih =>
    cases i with
    | zero =>
      simp [List.getD] at hold
      simp [List.set, List.countP_cons, hold, hnew]
    | succ j =>
      have := ih j (by simpa using h) (by simpa [List.getD] using hold)
      simp [List.set, List.countP_cons]
      omega

theorem listCountP_replicate (n : Nat) (p : Nat → Bool) (a : Nat) :
    (List.replicate n a).countP p = if p a then n else 0 := by
  induction n with
  | zero => simp
  | succ m ih =>
    by_cases h : p a <;> simp [List.replicate, List.countP_cons, h, ih]

/-! ### `LCA.log2` characterization -/

theorem log2Go_ge (n : Nat) :
    ∀ fuel count, n - 2 ^ count ≤ fuel → n ≤ 2 ^ LCA.log2Go fuel n count := by
  intro fuel
  induction fuel with
  | zero =>
    intro count hm
    show n ≤ 2 ^ count
    omega
  | succ m ih =>
    intro count hm
    show n ≤ 2 ^ (if 2 ^ count < n then LCA.log2Go m n (count + 1) else count)
    by_cases hx : 2 ^ count < n
    · rw [if_pos hx]
      apply ih
      have h2 : 2 ^ count < 2 ^ (count + 1) := by
        have h0 : (1 : Nat) ≤ 2 ^ count := Nat.one_le_two_pow
        rw [Nat.pow_succ]; omega
      omega
    · rw [if_neg hx]; omega

theorem log2Go_min (n c : Nat) (hc : n ≤ 2 ^ c) :
    ∀ fuel count, n - 2 ^ count ≤ fuel → count ≤ c →
      LCA.log2Go fuel n count ≤ c := by
  intro fuel
  induction fuel with
  | zero =>
    intro count _ hcount
    show count ≤ c
    omega
  | succ m ih =>
    intro count hm hcount
    show (if 2 ^ count < n then LCA.log2Go m n (count + 1) else count) ≤ c
    by_cases hx : 2 ^ count < n
    · rw [if_pos hx]
      have hne : count ≠ c := by
        intro he; rw [he] at hx; omega
      have h2 : 2 ^ count < 2 ^ (count + 1) := by
        have h0 : (1 : Nat) ≤ 2 ^ count := Nat.one_le_two_pow
        rw [Nat.pow_succ]; omega
      exact ih (count + 1) (by omega) (by omega)
    · rw [if_neg hx]; omega

/-- Lower bound `n <= 2 ^ LCA.log2 n`: the computed level count suffices. -/
theorem log2_ge (n : Nat) : n ≤ 2 ^ LCA.log2 n :=
  log2Go_ge n n 0 (by omega)

/-- Minimality of `LCA.log2 n` with that property. -/
theorem log2_min (n c : Nat) (hc : n ≤ 2 ^ c) : LCA.log2 n ≤ c :=
  log2Go_min n c hc n 0 (by omega) (by omega)

/-! ### Rooted trees

A connected, acyclic, undirected tree on `n` vertices rooted at `r` is
presented through its (unique) parent and depth functions: `dep r = 0`,
every non-root vertex `v` has `dep v = dep (par v) + 1`, every adjacency
entry is a parent/child pair, and every non-root vertex occurs in its
parent's neighbor list.  Every connected acyclic undirected graph with a
chosen root admits exactly one such pair `(par, dep)` (parent and depth in
the rooted tree), so quantifying over `(g, r, par, dep)` with this predicate
quantifies over exactly the inputs the spec admits.  The predicate is
decidable for concrete graphs, which the witnesses below use. -/

/-- Iterated parent `parIter par k v`: the `k`-fold parent of `v` (the vertex `k` steps up
the root-to-`v` path when `k ≤ dep v`). -/
def parIter (par : Nat → Nat) : Nat → Nat → Nat
  | 0, v => v
  | k + 1, v => parIter par k (par v)

/-- States that `g` is a tree on its vertex set, rooted at `r`, with parent function
`par` and depth function `dep`. -/
def IsRootedTree (g : UnGraph) (r : Nat) (par dep : Nat → Nat) : Prop :=
  r < g.nodeCount ∧ dep r = 0 ∧
  (∀ v, v < g.nodeCount → v ≠ r → par v < g.nodeCount ∧ dep v = dep (par v) + 1) ∧
  (∀ u, u < g.nodeCount → ∀ v ∈ g.neighbors u,
      v < g.nodeCount ∧ ((v ≠ r ∧ par v = u) ∨ (u ≠ r ∧ par u = v))) ∧
  (∀ v, v < g.nodeCount → v ≠ r → v ∈ g.neighbors (par v))

theorem parIter_add (par : Nat → Nat) (a b : Nat) (v : Nat) :
    parIter par (a + b) v = parIter par a (parIter par b v) := by
  induction b generalizing v with
  | zero => rfl
  | succ b ih =>
    have : a + (b + 1) = (a + b) + 1 := by omega
    rw [this]
    show parIter par (a + b) (par v) = _
    rw [ih (par v)]
    rfl

theorem parIter_one (par : Nat → Nat) (v : Nat) : parIter par 1 v = par v := rfl

section TreeFacts

variable {g : UnGraph} {r : Nat} {par dep : Nat → Nat}

theorem IsRootedTree.root_lt (h : IsRootedTree g r par dep) : r < g.nodeCount := h.1

theorem IsRootedTree.dep_root (h : IsRootedTree g r par dep) : dep r = 0 := h.2.1

theorem IsRootedTree.par_lt (h : IsRootedTree g r par dep) {v : Nat}
    (hv : v < g.nodeCount) (hvr : v ≠ r) : par v < g.nodeCount :=
  (h.2.2.1 v hv hvr).1

theorem IsRootedTree.dep_par (h : IsRootedTree g r par dep) {v : Nat}
    (hv : v < g.nodeCount) (hvr : v ≠ r) : dep v = dep (par v) + 1 :=
  (h.2.2.1 v hv hvr).2

theorem IsRootedTree.adj_char (h : IsRootedTree g r par dep) {u v : Nat}
    (hu : u < g.nodeCount) (hv : v ∈ g.neighbors u) :
    v < g.nodeCount ∧ ((v ≠ r ∧ par v = u) ∨ (u ≠ r ∧ par u = v)) :=
  h.2.2.2.1 u hu v hv

theorem IsRootedTree.par_adj (h : IsRootedTree g r par dep) {v : Nat}
    (hv : v < g.nodeCount) (hvr : v ≠ r) : v ∈ g.neighbors (par v) :=
  h.2.2.2.2 v hv hvr

/-- Only the root has depth `0`. -/
theorem IsRootedTree.eq_root_of_dep_zero (h : IsRootedTree g r par dep) {v : Nat}
    (hv : v < g.nodeCount) (hd : dep v = 0) : v = r := by
  by_contra hne
  have := h.dep_par hv hne
  omega

/-- Climbing `k ≤ dep v` steps stays in the tree and lowers the depth by
exactly `k`. -/
theorem IsRootedTree.parIter_facts (h : IsRootedTree g r par dep) :
    ∀ k v, v < g.nodeCount → k ≤ dep v →
      parIter par k v < g.nodeCount ∧ dep (parIter par k v) = dep v - k := by
  intro k
  induction k with
  | zero => intro v hv _; exact ⟨hv, by simp [parIter]⟩
  | succ k ih =>
    intro v hv hk
    have hvr : v ≠ r := by
      intro he; rw [he, h.dep_root] at hk; omega
    have hp := h.par_lt hv hvr
    have hd := h.dep_par hv hvr
    have hk' : k ≤ dep (par v) := by omega
    have := ih (par v) hp hk'
    exact ⟨this.1, by show dep (parIter par k (par v)) = _; omega⟩

theorem IsRootedTree.parIter_lt (h : IsRootedTree g r par dep) {k v : Nat}
    (hv : v < g.nodeCount) (hk : k ≤ dep v) : parIter par k v < g.nodeCount :=
  (h.parIter_facts k v hv hk).1

theorem IsRootedTree.dep_parIter (h : IsRootedTree g r par dep) {k v : Nat}
    (hv : v < g.nodeCount) (hk : k ≤ dep v) : dep (parIter par k v) = dep v - k :=
  (h.parIter_facts k v hv hk).2

/-- Climbing all the way reaches the root. -/
theorem IsRootedTree.parIter_dep_eq_root (h : IsRootedTree g r par dep) {v : Nat}
    (hv : v < g.nodeCount) : parIter par (dep v) v = r := by
  have h1 := h.parIter_lt hv (Nat.le_refl (dep v))
  have h2 := h.dep_parIter hv (Nat.le_refl (dep v))
  exact h.eq_root_of_dep_zero h1 (by omega)

/-- Two ancestors of `v` at the same depth coincide. -/
theorem IsRootedTree.anc_unique (h : IsRootedTree g r par dep) {v k1 k2 : Nat}
    (hv : v < g.nodeCount) (h1 : k1 ≤ dep v) (h2 : k2 ≤ dep v)
    (hd : dep (parIter par k1 v) = dep (parIter par k2 v)) :
    parIter par k1 v = parIter par k2 v := by
  have e1 := h.dep_parIter hv h1
  have e2 := h.dep_parIter hv h2
  have : k1 = k2 := by omega
  rw [this]

/-- Depths are bounded by the vertex count: the `dep v + 1` vertices on the
root-to-`v` path are pairwise distinct members of `[0, n)`. -/
theorem IsRootedTree.dep_lt (h : IsRootedTree g r par dep) {v : Nat}
    (hv : v < g.nodeCount) : dep v < g.nodeCount := by
  have hmap : ∀ a ∈ Finset.range (dep v + 1), parIter par a v ∈ Finset.range g.nodeCount := by
    intro a ha
    rw [Finset.mem_range] at ha ⊢
    exact h.parIter_lt hv (by omega)
  have hinj : Set.InjOn (fun a => parIter par a v) (Finset.range (dep v + 1)) := by
    intro a ha b hb he
    simp only [Finset.coe_range, Set.mem_Iio] at ha hb
    have ea : dep (parIter par a v) = dep v - a := h.dep_parIter hv (by omega)
    have eb : dep (parIter par b v) = dep v - b := h.dep_parIter hv (by omega)
    simp only at he
    rw [he] at ea
    omega
  have := Finset.card_le_card_of_injOn _ hmap hinj
  simp only [Finset.card_range] at this
  omega

end TreeFacts

/-! ### Observations on the table state during construction -/

/-- Total read of `depth[v]` (in range in every proven context). -/
def depget (t : LCA) (v : Nat) : Nat := t.depth.getD v 0

/-- Total read of `jump_table[i][v]` (in range in every proven context). -/
def jtget (t : LCA) (i v : Nat) : Nat := (t.jump_table.getD i []).getD v 0

/-- Holds when `v` has been discovered by the BFS: its depth slot is no longer the
sentinel. -/
def Vis (t : LCA) (v : Nat) : Prop := depget t v ≠ USIZE_MAX

/-- The intended final value of `jump_table[i][v]`: the ancestor `2^i` steps
above `v` when it exists, the sentinel otherwise. -/
def colSpec (par dep : Nat → Nat) (v i : Nat) : Nat :=
  if 2 ^ i ≤ dep v then parIter par (2 ^ i) v else USIZE_MAX

/-- Number of depth slots still holding the sentinel. -/
def unvisCount (t : LCA) : Nat := t.depth.countP (fun d => d == USIZE_MAX)

theorem USIZE_MAX_pos : 0 < USIZE_MAX := by
  have : (1 : Nat) < 2 ^ 64 := Nat.one_lt_two_pow_iff.mpr (by omega)
  unfold USIZE_MAX
  omega

theorem ne_USIZE_MAX_of_lt {a n : Nat} (ha : a < n) (hn : n ≤ USIZE_MAX) :
    a ≠ USIZE_MAX := by omega

/-- Unfolding equation of `fillLevelsFrom` past the last level. -/
theorem fillLevelsFrom_stop {v levels i : Nat} {jt : List (List Nat)}
    (h : ¬ i < levels) : fillLevelsFrom v levels i jt = jt := by
  unfold fillLevelsFrom
  have h0 : levels - i = 0 := by omega
  rw [h0]
  rfl

/-- Unfolding equation of `fillLevelsFrom` for one loop iteration. -/
theorem fillLevelsFrom_step {v levels i : Nat} {jt : List (List Nat)}
    (h : i < levels) :
    fillLevelsFrom v levels i jt =
      fillLevelsFrom v levels (i + 1)
        (if (jt.getD (i - 1) []).getD v 0 ≠ USIZE_MAX then
          jt.set i
            ((jt.getD i []).set v
              ((jt.getD (i - 1) []).getD ((jt.getD (i - 1) []).getD v 0) 0))
        else jt) := by
  unfold fillLevelsFrom
  have h0 : levels - i = (levels - (i + 1)) + 1 := by omega
  rw [h0]
  show (if i < levels then _ else jt) = _
  rw [if_pos h]

/-- Running `exploreStep` on an already-discovered neighbor does nothing. -/
theorem exploreStep_skip {levels u : Nat} {acc : LCA × List Nat} {v : Nat}
    (h : acc.1.depth.getD v 0 ≠ USIZE_MAX) : exploreStep levels u acc v = acc := by
  unfold exploreStep
  rw [if_neg h]

/-- Running `exploreStep` on an undiscovered neighbor discovers it. -/
theorem exploreStep_discover {levels u : Nat} {acc : LCA × List Nat} {v : Nat}
    (h : acc.1.depth.getD v 0 = USIZE_MAX) :
    exploreStep levels u acc v =
      ({ depth := acc.1.depth.set v (acc.1.depth.getD u 0 + 1)
         jump_table :=
           fillLevelsFrom v levels 1
             (acc.1.jump_table.set 0 ((acc.1.jump_table.getD 0 []).set v u)) },
       acc.2 ++ [v]) := by
  unfold exploreStep
  rw [if_pos h]

/-- Invariant of the table state maintained throughout the BFS of
`LCA::new` (everything except the queue-related clauses). -/
structure CoreInv (g : UnGraph) (r : Nat) (par dep : Nat → Nat) (levels : Nat)
    (t : LCA) : Prop where
  depth_len : t.depth.length = g.nodeCount
  jt_len : t.jump_table.length = levels
  row_len : ∀ j, j < levels → (t.jump_table.getD j []).length = g.nodeCount
  vis_root : Vis t r
  vis_depth : ∀ v, v < g.nodeCount → Vis t v → depget t v = dep v
  vis_col : ∀ v, v < g.nodeCount → Vis t v → ∀ i, i < levels →
      jtget t i v = colSpec par dep v i
  unvis_col : ∀ v, v < g.nodeCount → ¬ Vis t v → ∀ i, i < levels →
      jtget t i v = USIZE_MAX
  vis_par : ∀ v, v < g.nodeCount → Vis t v → v ≠ r → Vis t (par v)

/-- Discovered vertices have all their proper ancestors discovered. -/
theorem CoreInv.vis_parIter {g : UnGraph} {r : Nat} {par dep : Nat → Nat}
    {levels : Nat} {t : LCA} (hC : CoreInv g r par dep levels t)
    (hT : IsRootedTree g r par dep) :
    ∀ k v, v < g.nodeCount → Vis t v → k ≤ dep v → Vis t (parIter par k v) := by
  intro k
  induction k with
  | zero => intro v _ hvis _; exact hvis
  | succ k ih =>
    intro v hv hvis hk
    have hvr : v ≠ r := by
      intro he; rw [he, hT.dep_root] at hk; omega
    have hp := hT.par_lt hv hvr
    have hd := hT.dep_par hv hvr
    show Vis t (parIter par k (par v))
    exact ih (par v) hp (hC.vis_par v hv hvis hvr) (by omega)

/-- Correctness of the level-filling loop run at the discovery of `v`:
starting from a state whose column for `v` is correct below level `i` and
sentinel from level `i` up, and whose other columns agree with the
pre-discovery table `t`, the loop completes `v`'s column and leaves all
other columns untouched. -/
theorem fillLevels_spec
    {g : UnGraph} {r : Nat} {par dep : Nat → Nat} {levels : Nat} {t : LCA}
    (hC : CoreInv g r par dep levels t) (hT : IsRootedTree g r par dep)
    (hn : g.nodeCount ≤ USIZE_MAX)
    {v : Nat} (hv : v < g.nodeCount) (hvr : v ≠ r) (hvis_par : Vis t (par v)) :
    ∀ m i jt, 1 ≤ i → i ≤ levels → levels - i ≤ m →
      jt.length = levels →
      (∀ j, j < levels → (jt.getD j []).length = g.nodeCount) →
      (∀ j, j < i → (jt.getD j []).getD v 0 = colSpec par dep v j) →
      (∀ j, i ≤ j → j < levels → (jt.getD j []).getD v 0 = USIZE_MAX) →
      (∀ w, w ≠ v → ∀ j, (jt.getD j []).getD w 0 = jtget t j w) →
      (fillLevelsFrom v levels i jt).length = levels ∧
      (∀ j, j < levels →
        ((fillLevelsFrom v levels i jt).getD j []).length = g.nodeCount) ∧
      (∀ j, j < levels →
        ((fillLevelsFrom v levels i jt).getD j []).getD v 0 = colSpec par dep v j) ∧
      (∀ w, w ≠ v → ∀ j,
        ((fillLevelsFrom v levels i jt).getD j []).getD w 0 = jtget t j w) := by
  have hdep1 : 1 ≤ dep v := by
    have := hT.dep_par hv hvr
    omega
  intro m
  induction m with
  | zero =>
    intro i jt h1 hle hm hlen hrow hdone htodo hother
    have hstop : ¬ i < levels := by omega
    rw [fillLevelsFrom_stop hstop]
    exact ⟨hlen, hrow, fun j hj => hdone j (by omega), hother⟩
  | succ m ih =>
    intro i jt h1 hle hm hlen hrow hdone htodo hother
    by_cases hil : i < levels
    · obtain ⟨i', rfl⟩ : ∃ i', i = i' + 1 := ⟨i - 1, by omega⟩
      rw [fillLevelsFrom_step hil]
      simp only [Nat.add_sub_cancel]
      have hanc0 : (jt.getD i' []).getD v 0 = colSpec par dep v i' :=
        hdone i' (by omega)
      have hpow : (2 : Nat) ^ (i' + 1) = 2 ^ i' + 2 ^ i' := by
        rw [Nat.pow_succ]; omega
      have hpow1 : 1 ≤ (2 : Nat) ^ i' := Nat.one_le_two_pow
      by_cases hca : 2 ^ i' ≤ dep v
      · -- the ancestor `2^i'` above `v` exists
        have hanc : (jt.getD i' []).getD v 0 = parIter par (2 ^ i') v := by
          rw [hanc0, colSpec, if_pos hca]
        have ha_lt : parIter par (2 ^ i') v < g.nodeCount := hT.parIter_lt hv hca
        have ha_dep : dep (parIter par (2 ^ i') v) = dep v - 2 ^ i' :=
          hT.dep_parIter hv hca
        have ha_ne : parIter par (2 ^ i') v ≠ USIZE_MAX :=
          ne_USIZE_MAX_of_lt ha_lt hn
        have ha_nv : parIter par (2 ^ i') v ≠ v := by
          intro he
          rw [he] at ha_dep
          omega
        have ha_vis : Vis t (parIter par (2 ^ i') v) := by
          have hsplit : 2 ^ i' = (2 ^ i' - 1) + 1 := by omega
          rw [hsplit]
          show Vis t (parIter par (2 ^ i' - 1) (par v))
          exact hC.vis_parIter hT (2 ^ i' - 1) (par v) (hT.par_lt hv hvr) hvis_par
            (by have := hT.dep_par hv hvr; omega)
        have hread : (jt.getD i' []).getD (parIter par (2 ^ i') v) 0 =
            colSpec par dep (parIter par (2 ^ i') v) i' := by
          rw [hother _ ha_nv i']
          exact hC.vis_col _ ha_lt ha_vis i' (by omega)
        have hshift : colSpec par dep (parIter par (2 ^ i') v) i' =
            colSpec par dep v (i' + 1) := by
          unfold colSpec
          rw [ha_dep, ← parIter_add par (2 ^ i') (2 ^ i') v, ← hpow]
          by_cases hcb : 2 ^ (i' + 1) ≤ dep v
          · rw [if_pos (by omega), if_pos hcb]
          · rw [if_neg (by omega), if_neg hcb]
        rw [hanc, if_pos ha_ne, hread, hshift]
        -- recurse on the state with level `i' + 1` of `v`'s column now set
        apply ih (i' + 1 + 1)
        · omega
        · omega
        · omega
        · simp [hlen]
        · intro j hj
          by_cases hji : j = i' + 1
          · subst hji
            rw [listGetD_set_self _ _ _ _ (by omega)]
            rw [List.length_set]
            exact hrow _ hj
          · rw [listGetD_set_ne _ _ _ _ _ (fun he => hji he.symm)]
            exact hrow _ hj
        · intro j hj
          by_cases hji : j = i' + 1
          · subst hji
            rw [listGetD_set_self _ _ _ _ (by omega)]
            rw [listGetD_set_self _ _ _ _ (by rw [hrow _ hil]; omega)]
          · have hji' : j < i' + 1 := by omega
            rw [listGetD_set_ne _ _ _ _ _ (fun he => hji he.symm)]
            exact hdone j hji'
        · intro j hj1 hj2
          rw [listGetD_set_ne _ _ _ _ _ (by omega)]
          exact htodo j (by omega) hj2
        · intro w hw j
          by_cases hji : j = i' + 1
          · subst hji
            rw [listGetD_set_self _ _ _ _ (by omega)]
            rw [listGetD_set_ne _ _ _ _ _ (fun he => hw he.symm)]
            exact hother w hw _
          · rw [listGetD_set_ne _ _ _ _ _ (fun he => hji he.symm)]
            exact hother w hw _
      · -- no ancestor `2^i'` above `v`: the sentinel is propagated
        have hanc : (jt.getD i' []).getD v 0 = USIZE_MAX := by
          rw [hanc0, colSpec, if_neg hca]
        rw [hanc, if_neg (by simp)]
        apply ih (i' + 1 + 1) jt (by omega) (by omega) (by omega) hlen hrow
        · intro j hj
          by_cases hji : j = i' + 1
          · subst hji
            rw [htodo _ (by omega) hil, colSpec, if_neg (by omega)]
          · exact hdone j (by omega)
        · intro j hj1 hj2
          exact htodo j (by omega) hj2
        · exact hother
    · rw [fillLevelsFrom_stop hil]
      exact ⟨hlen, hrow, fun j hj => hdone j (by omega), hother⟩

/-- Effect of discovering the neighbor `v` while exploring `u`: the updated
table again satisfies the core invariant, `v` becomes discovered, nothing
else changes its discovery status, and one sentinel depth slot is cleared. -/
theorem discover_spec
    {g : UnGraph} {r : Nat} {par dep : Nat → Nat} {levels : Nat} {t : LCA}
    (hC : CoreInv g r par dep levels t) (hT : IsRootedTree g r par dep)
    (hn : g.nodeCount ≤ USIZE_MAX)
    {u v : Nat} (hu : u < g.nodeCount) (hvisu : Vis t u)
    (hadj : v ∈ g.neighbors u) (hunvis : ¬ Vis t v) (t' : LCA)
    (ht' : t' =
      { depth := t.depth.set v (t.depth.getD u 0 + 1)
        jump_table :=
          fillLevelsFrom v levels 1
            (t.jump_table.set 0 ((t.jump_table.getD 0 []).set v u)) }) :
    CoreInv g r par dep levels t' ∧
    (∀ w, Vis t w → Vis t' w) ∧
    Vis t' v ∧
    (∀ w, Vis t' w → Vis t w ∨ w = v) ∧
    unvisCount t' + 1 = unvisCount t ∧
    v < g.nodeCount := by
  subst ht'
  have hchar := hT.adj_char hu hadj
  have hv : v < g.nodeCount := hchar.1
  have hvr : v ≠ r := fun he => hunvis (he ▸ hC.vis_root)
  have hpv : par v = u := by
    rcases hchar.2 with ⟨_, h⟩ | ⟨hur, h⟩
    · exact h
    · exact absurd (h ▸ hC.vis_par u hu hvisu hur) hunvis
  have hdu : depget t u = dep u := hC.vis_depth u hu hvisu
  have hdv : dep v = dep u + 1 := by
    have := hT.dep_par hv hvr
    rw [hpv] at this
    exact this
  have hdvn : dep v < g.nodeCount := hT.dep_lt hv
  have hdv_ne : dep v ≠ USIZE_MAX := ne_USIZE_MAX_of_lt hdvn hn
  have hvlen : v < t.depth.length := by rw [hC.depth_len]; exact hv
  have hval : t.depth.getD u 0 + 1 = dep v := by
    show depget t u + 1 = dep v
    omega
  -- depth reads after the update
  have hdep_self : (t.depth.set v (t.depth.getD u 0 + 1)).getD v 0 = dep v := by
    rw [listGetD_set_self _ _ _ _ hvlen]; exact hval
  have hdep_ne : ∀ w, w ≠ v →
      (t.depth.set v (t.depth.getD u 0 + 1)).getD w 0 = depget t w := by
    intro w hw
    exact listGetD_set_ne _ _ _ _ _ (fun he => hw he.symm)
  have hmono : ∀ w, Vis t w →
      Vis { depth := t.depth.set v (t.depth.getD u 0 + 1),
            jump_table :=
              fillLevelsFrom v levels 1
                (t.jump_table.set 0 ((t.jump_table.getD 0 []).set v u)) } w := by
    intro w hw
    have hwv : w ≠ v := fun he => hunvis (he ▸ hw)
    show (t.depth.set v (t.depth.getD u 0 + 1)).getD w 0 ≠ USIZE_MAX
    rw [hdep_ne w hwv]
    exact hw
  -- jump-table state after the update
  have hfill :
      (fillLevelsFrom v levels 1
        (t.jump_table.set 0 ((t.jump_table.getD 0 []).set v u))).length = levels ∧
      (∀ j, j < levels →
        ((fillLevelsFrom v levels 1
          (t.jump_table.set 0 ((t.jump_table.getD 0 []).set v u))).getD j []).length
          = g.nodeCount) ∧
      (∀ j, j < levels →
        ((fillLevelsFrom v levels 1
          (t.jump_table.set 0 ((t.jump_table.getD 0 []).set v u))).getD j []).getD v 0
          = colSpec par dep v j) ∧
      (∀ w, w ≠ v → ∀ j,
        ((fillLevelsFrom v levels 1
          (t.jump_table.set 0 ((t.jump_table.getD 0 []).set v u))).getD j []).getD w 0
          = jtget t j w) := by
    rcases Nat.eq_zero_or_pos levels with hlev | hlev
    · subst hlev
      have hjt0 : t.jump_table = [] := by
        have := hC.jt_len
        exact List.eq_nil_of_length_eq_zero this
      rw [hjt0]
      simp only [List.set]
      rw [fillLevelsFrom_stop (by omega)]
      refine ⟨rfl, by omega, by omega, ?_⟩
      intro w _ j
      simp [jtget, hjt0, List.getD]
    · apply fillLevels_spec hC hT hn hv hvr (hpv ▸ hvisu) levels 1 _
        (by omega) (by omega) (by omega)
      · simp [hC.jt_len]
      · intro j hj
        by_cases hj0 : j = 0
        · subst hj0
          rw [listGetD_set_self _ _ _ _ (by rw [hC.jt_len]; omega)]
          rw [List.length_set]
          exact hC.row_len 0 hlev
        · rw [listGetD_set_ne _ _ _ _ _ (fun he => hj0 he.symm)]
          exact hC.row_len j hj
      · intro j hj
        have hj0 : j = 0 := by omega
        subst hj0
        rw [listGetD_set_self _ _ _ _ (by rw [hC.jt_len]; omega)]
        rw [listGetD_set_self _ _ _ _ (by rw [hC.row_len 0 hlev]; exact hv)]
        rw [colSpec, if_pos (by omega)]
        rw [pow_zero, parIter_one, hpv]
      · intro j hj1 hj2
        rw [listGetD_set_ne _ _ _ _ _ (by omega)]
        exact hC.unvis_col v hv hunvis j hj2
      · intro w hw j
        by_cases hj0 : j = 0
        · subst hj0
          rw [listGetD_set_self _ _ _ _ (by rw [hC.jt_len]; omega)]
          rw [listGetD_set_ne _ _ _ _ _ (fun he => hw he.symm)]
          rfl
        · rw [listGetD_set_ne _ _ _ _ _ (fun he => hj0 he.symm)]
          rfl
  refine ⟨?_, hmono, ?_, ?_, ?_, hv⟩
  · -- CoreInv for the updated table
    refine ⟨?_, hfill.1, hfill.2.1, ?_, ?_, ?_, ?_, ?_⟩
    · show (t.depth.set v _).length = g.nodeCount
      rw [List.length_set]
      exact hC.depth_len
    · -- root still discovered
      show (t.depth.set v _).getD r 0 ≠ USIZE_MAX
      rw [hdep_ne r (fun he => hvr he.symm)]
      exact hC.vis_root
    · intro w hw hwvis
      by_cases hwv : w = v
      · subst hwv
        show (t.depth.set w _).getD w 0 = dep w
        exact hdep_self
      · show (t.depth.set v _).getD w 0 = dep w
        rw [hdep_ne w hwv]
        apply hC.vis_depth w hw
        have := hwvis
        show depget t w ≠ USIZE_MAX
        have h2 : (t.depth.set v (t.depth.getD u 0 + 1)).getD w 0 ≠ USIZE_MAX := this
        rw [hdep_ne w hwv] at h2
        exact h2
    · intro w hw hwvis i hi
      by_cases hwv : w = v
      · subst hwv
        show ((fillLevelsFrom _ _ _ _).getD i []).getD w 0 = colSpec par dep w i
        exact hfill.2.2.1 i hi
      · have hwvis' : Vis t w := by
          have h2 : (t.depth.set v (t.depth.getD u 0 + 1)).getD w 0 ≠ USIZE_MAX := hwvis
          rw [hdep_ne w hwv] at h2
          exact h2
        show ((fillLevelsFrom _ _ _ _).getD i []).getD w 0 = colSpec par dep w i
        rw [hfill.2.2.2 w hwv i]
        exact hC.vis_col w hw hwvis' i hi
    · intro w hw hwvis i hi
      have hwv : w ≠ v := by
        intro he
        subst he
        apply hwvis
        show (t.depth.set w (t.depth.getD u 0 + 1)).getD w 0 ≠ USIZE_MAX
        rw [hdep_self]
        exact hdv_ne
      have hwvis' : ¬ Vis t w := by
        intro hcontra
        exact hwvis (hmono w hcontra)
      show ((fillLevelsFrom _ _ _ _).getD i []).getD w 0 = USIZE_MAX
      rw [hfill.2.2.2 w hwv i]
      exact hC.unvis_col w hw hwvis' i hi
    · intro w hw hwvis hwr
      by_cases hwv : w = v
      · subst hwv
        rw [hpv]
        exact hmono u hvisu
      · have hwvis' : Vis t w := by
          have h2 : (t.depth.set v (t.depth.getD u 0 + 1)).getD w 0 ≠ USIZE_MAX := hwvis
          rw [hdep_ne w hwv] at h2
          exact h2
        exact hmono (par w) (hC.vis_par w hw hwvis' hwr)
  · -- v discovered
    show (t.depth.set v _).getD v 0 ≠ USIZE_MAX
    rw [hdep_self]
    exact hdv_ne
  · intro w hwvis
    by_cases hwv : w = v
    · exact Or.inr hwv
    · left
      have h2 : (t.depth.set v (t.depth.getD u 0 + 1)).getD w 0 ≠ USIZE_MAX := hwvis
      rw [hdep_ne w hwv] at h2
      exact h2
  · -- one sentinel slot cleared
    show (t.depth.set v (t.depth.getD u 0 + 1)).countP (fun d => d == USIZE_MAX) + 1
        = t.depth.countP (fun d => d == USIZE_MAX)
    apply listCountP_set_flip _ _ _ _ hvlen
    · have : depget t v = USIZE_MAX := by
        by_contra hne
        exact hunvis hne
      rw [show t.depth.getD v 0 = depget t v from rfl, this]
      simp
    · rw [hval]
      simp [hdv_ne]

theorem bfsLoop_nil {g : UnGraph} {levels fuel : Nat} {t : LCA} :
    bfsLoop g levels (fuel + 1) t [] = t := rfl

theorem bfsLoop_cons {g : UnGraph} {levels fuel : Nat} {t : LCA} {u : Nat}
    {rest : List Nat} :
    bfsLoop g levels (fuel + 1) t (u :: rest) =
      bfsLoop g levels fuel (explore g levels t u).1
        (rest ++ (explore g levels t u).2) := rfl

/-- Invariant carried through the fold of `explore` over the neighbor list:
`t0` is the table at the start of the `explore` call, `t` the current table
and `new` the `to_explore` list built so far. -/
structure FoldInv (g : UnGraph) (r : Nat) (par dep : Nat → Nat) (levels : Nat)
    (t0 t : LCA) (new : List Nat) : Prop where
  core : CoreInv g r par dep levels t
  mono : ∀ w, Vis t0 w → Vis t w
  src : ∀ w, Vis t w → Vis t0 w ∨ w ∈ new
  new_facts : ∀ w ∈ new, w < g.nodeCount ∧ Vis t w
  count : unvisCount t + new.length = unvisCount t0

theorem exploreFold_spec
    {g : UnGraph} {r : Nat} {par dep : Nat → Nat} {levels : Nat}
    (hT : IsRootedTree g r par dep) (hn : g.nodeCount ≤ USIZE_MAX)
    {t0 : LCA} {u : Nat} (hu : u < g.nodeCount) (hvisu0 : Vis t0 u) :
    ∀ ns : List Nat, (∀ x ∈ ns, x ∈ g.neighbors u) →
    ∀ t new, FoldInv g r par dep levels t0 t new →
      FoldInv g r par dep levels t0
        (ns.foldl (exploreStep levels u) (t, new)).1
        (ns.foldl (exploreStep levels u) (t, new)).2 ∧
      (∀ x, Vis t x → Vis (ns.foldl (exploreStep levels u) (t, new)).1 x) ∧
      (∀ x ∈ ns, Vis (ns.foldl (exploreStep levels u) (t, new)).1 x) := by
  intro ns
  induction ns with
  | nil =>
    intro _ t new hF
    exact ⟨hF, fun x h => h, by simp⟩
  | cons x ns ih =>
    intro hns t new hF
    have hxadj : x ∈ g.neighbors u := hns x (List.mem_cons_self x ns)
    have hns' : ∀ y ∈ ns, y ∈ g.neighbors u :=
      fun y hy => hns y (List.mem_cons_of_mem x hy)
    rw [List.foldl_cons]
    by_cases hx : Vis t x
    · -- already discovered: the step is a no-op
      rw [exploreStep_skip (show (t, new).1.depth.getD x 0 ≠ USIZE_MAX from hx)]
      obtain ⟨hF', hmono', hall'⟩ := ih hns' t new hF
      refine ⟨hF', hmono', ?_⟩
      intro y hy
      rcases List.mem_cons.mp hy with rfl | hy'
      · exact hmono' y hx
      · exact hall' y hy'
    · -- new discovery
      have hxeq : t.depth.getD x 0 = USIZE_MAX := by
        by_contra hne
        exact hx hne
      rw [exploreStep_discover (show (t, new).1.depth.getD x 0 = USIZE_MAX from hxeq)]
      obtain ⟨hC1, hmono1, hvis1x, hsrc1, hcount1, hxn⟩ :=
        discover_spec hF.core hT hn hu (hF.mono u hvisu0) hxadj hx _ rfl
      have hF1 : FoldInv g r par dep levels t0
          { depth := t.depth.set x (t.depth.getD u 0 + 1)
            jump_table :=
              fillLevelsFrom x levels 1
                (t.jump_table.set 0 ((t.jump_table.getD 0 []).set x u)) }
          (new ++ [x]) := by
        refine ⟨hC1, ?_, ?_, ?_, ?_⟩
        · intro w hw
          exact hmono1 w (hF.mono w hw)
        · intro w hw
          rcases hsrc1 w hw with hwt | rfl
          · rcases hF.src w hwt with h0 | hnew
            · exact Or.inl h0
            · exact Or.inr (List.mem_append_left _ hnew)
          · exact Or.inr (List.mem_append_right _ (List.mem_singleton_self w))
        · intro w hw
          rcases List.mem_append.mp hw with hw' | hw'
          · obtain ⟨h1, h2⟩ := hF.new_facts w hw'
            exact ⟨h1, hmono1 w h2⟩
          · rw [List.mem_singleton] at hw'
            subst hw'
            exact ⟨hxn, hvis1x⟩
        · have := hF.count
          simp only [List.length_append, List.length_singleton]
          omega
      obtain ⟨hF', hmono', hall'⟩ := ih hns' _ _ hF1
      refine ⟨hF', ?_, ?_⟩
      · intro y hy
        exact hmono' y (hmono1 y hy)
      · intro y hy
        rcases List.mem_cons.mp hy with rfl | hy'
        · exact hmono' y hvis1x
        · exact hall' y hy'

theorem explore_spec
    {g : UnGraph} {r : Nat} {par dep : Nat → Nat} {levels : Nat}
    (hT : IsRootedTree g r par dep) (hn : g.nodeCount ≤ USIZE_MAX)
    {t : LCA} (hC : CoreInv g r par dep levels t)
    {u : Nat} (hu : u < g.nodeCount) (hvisu : Vis t u) :
    FoldInv g r par dep levels t (explore g levels t u).1 (explore g levels t u).2 ∧
    (∀ x ∈ g.neighbors u, Vis (explore g levels t u).1 x) := by
  have h0 : FoldInv g r par dep levels t t [] :=
    ⟨hC, fun _ h => h, fun w hw => Or.inl hw, by simp, by simp⟩
  obtain ⟨hF, _, hall⟩ :=
    exploreFold_spec hT hn hu hvisu (g.neighbors u) (fun _ h => h) t [] h0
  exact ⟨hF, hall⟩

theorem bfsLoop_spec
    {g : UnGraph} {r : Nat} {par dep : Nat → Nat} {levels : Nat}
    (hT : IsRootedTree g r par dep) (hn : g.nodeCount ≤ USIZE_MAX) :
    ∀ fuel (t : LCA) (queue : List Nat), CoreInv g r par dep levels t →
      (∀ x ∈ queue, x < g.nodeCount ∧ Vis t x) →
      (∀ x, x < g.nodeCount → Vis t x →
        x ∈ queue ∨ ∀ w ∈ g.neighbors x, Vis t w) →
      queue.length + unvisCount t < fuel →
      CoreInv g r par dep levels (bfsLoop g levels fuel t queue) ∧
      (∀ x, x < g.nodeCount → Vis (bfsLoop g levels fuel t queue) x →
        ∀ w ∈ g.neighbors x, Vis (bfsLoop g levels fuel t queue) w) := by
  intro fuel
  induction fuel with
  | zero =>
    intro t queue _ _ _ hfuel
    omega
  | succ fuel ih =>
    intro t queue hC hqueue hfront hfuel
    cases queue with
    | nil =>
      rw [bfsLoop_nil]
      refine ⟨hC, ?_⟩
      intro x hx hvis w hw
      rcases hfront x hx hvis with hmem | hnb
      · simp at hmem
      · exact hnb w hw
    | cons u rest =>
      rw [bfsLoop_cons]
      obtain ⟨hu, hvisu⟩ := hqueue u (List.mem_cons_self u rest)
      obtain ⟨hF, hnb⟩ := explore_spec hT hn hC hu hvisu
      apply ih
      · exact hF.core
      · intro x hx
        rcases List.mem_append.mp hx with hx' | hx'
        · obtain ⟨h1, h2⟩ := hqueue x (List.mem_cons_of_mem u hx')
          exact ⟨h1, hF.mono x h2⟩
        · exact hF.new_facts x hx'
      · intro x hx hvisx
        rcases hF.src x hvisx with hxt | hxnew
        · rcases hfront x hx hxt with hmem | hnbx
          · rcases List.mem_cons.mp hmem with rfl | hmem'
            · exact Or.inr (fun w hw => hnb w hw)
            · exact Or.inl (List.mem_append_left _ hmem')
          · exact Or.inr (fun w hw => hF.mono w (hnbx w hw))
        · exact Or.inl (List.mem_append_right _ hxnew)
      · have := hF.count
        simp only [List.length_append, List.length_cons] at hfuel ⊢
        omega

/-- Full characterization of the table produced by `LCA::new` on a rooted
tree: every vertex's depth slot holds its tree depth and every jump-table
entry holds the intended power-of-two ancestor (or the sentinel). -/
def TableSpec (g : UnGraph) (r : Nat) (par dep : Nat → Nat) (t : LCA) : Prop :=
  t.depth.length = g.nodeCount ∧
  t.jump_table.length = LCA.log2 g.nodeCount ∧
  (∀ j, j < LCA.log2 g.nodeCount →
    (t.jump_table.getD j []).length = g.nodeCount) ∧
  (∀ v, v < g.nodeCount → depget t v = dep v) ∧
  (∀ i, i < LCA.log2 g.nodeCount → ∀ v, v < g.nodeCount →
    jtget t i v = colSpec par dep v i)

/-- The BFS of `LCA::new` discovers every vertex of a rooted tree and fills
the table as specified. -/
theorem new_spec {g : UnGraph} {r : Nat} {par dep : Nat → Nat}
    (hT : IsRootedTree g r par dep) (hn : g.nodeCount ≤ USIZE_MAX) :
    TableSpec g r par dep (LCA.new g r) := by
  have hr : r < g.nodeCount := hT.root_lt
  have hrlen : r < (List.replicate g.nodeCount USIZE_MAX).length := by
    rw [List.length_replicate]; exact hr
  set levels := LCA.log2 g.nodeCount with hlev
  set t0 : LCA :=
    { jump_table := List.replicate levels (List.replicate g.nodeCount USIZE_MAX)
      depth := (List.replicate g.nodeCount USIZE_MAX).set r 0 } with ht0
  have hnew : LCA.new g r = bfsLoop g levels (g.nodeCount + 1) t0 [r] := rfl
  have hdep0 : ∀ v, depget t0 v = if v = r then 0 else
      (List.replicate g.nodeCount USIZE_MAX).getD v 0 := by
    intro v
    by_cases hv : v = r
    · subst hv
      show ((List.replicate g.nodeCount USIZE_MAX).set v 0).getD v 0 = _
      rw [listGetD_set_self _ _ _ _ hrlen, if_pos rfl]
    · show ((List.replicate g.nodeCount USIZE_MAX).set r 0).getD v 0 = _
      rw [listGetD_set_ne _ _ _ _ _ (fun he => hv he.symm), if_neg hv]
  have hvis0 : ∀ v, v < g.nodeCount → Vis t0 v → v = r := by
    intro v hvn hv
    by_contra hne
    apply hv
    show depget t0 v = USIZE_MAX
    rw [hdep0 v, if_neg hne, listGetD_replicate, if_pos hvn]
  have hvisr : Vis t0 r := by
    show depget t0 r ≠ USIZE_MAX
    rw [hdep0 r, if_pos rfl]
    have := USIZE_MAX_pos
    omega
  have hjt0 : ∀ i v, i < levels → v < g.nodeCount → jtget t0 i v = USIZE_MAX := by
    intro i v hi hvn
    show ((List.replicate levels (List.replicate g.nodeCount USIZE_MAX)).getD i
      []).getD v 0 = USIZE_MAX
    rw [listGetD_replicate, if_pos hi, listGetD_replicate, if_pos hvn]
  have hC0 : CoreInv g r par dep levels t0 := by
    refine ⟨?_, ?_, ?_, hvisr, ?_, ?_, ?_, ?_⟩
    · show ((List.replicate g.nodeCount USIZE_MAX).set r 0).length = _
      rw [List.length_set, List.length_replicate]
    · show (List.replicate levels (List.replicate g.nodeCount USIZE_MAX)).length = _
      rw [List.length_replicate]
    · intro j hj
      show ((List.replicate levels (List.replicate g.nodeCount USIZE_MAX)).getD j
        []).length = _
      rw [listGetD_replicate, if_pos hj, List.length_replicate]
    · intro v hv hvis
      have := hvis0 v hv hvis
      subst this
      rw [hdep0 v, if_pos rfl, hT.dep_root]
    · intro v hv hvis i hi
      have hvr := hvis0 v hv hvis
      subst hvr
      rw [hjt0 i v hi hv, colSpec, hT.dep_root, if_neg (by
        have : (1 : Nat) ≤ 2 ^ i := Nat.one_le_two_pow
        omega)]
    · intro v hv _ i hi
      exact hjt0 i v hi hv
    · intro v hv hvis hvr
      exact absurd (hvis0 v hv hvis) hvr
  have hcount0 : unvisCount t0 + 1 = g.nodeCount := by
    show ((List.replicate g.nodeCount USIZE_MAX).set r 0).countP
      (fun d => d == USIZE_MAX) + 1 = _
    rw [listCountP_set_flip _ _ r 0 hrlen
      (by rw [listGetD_replicate, if_pos hr]; simp)
      (by have := USIZE_MAX_pos; simp; omega)]
    rw [listCountP_replicate]
    simp
  obtain ⟨hC, hclosed⟩ := bfsLoop_spec hT hn (g.nodeCount + 1) t0 [r] hC0
    (by
      intro x hx
      rw [List.mem_singleton] at hx
      subst hx
      exact ⟨hr, hvisr⟩)
    (by
      intro x hx hvis
      exact Or.inl (by rw [hvis0 x hx hvis]; exact List.mem_singleton_self r))
    (by simp; omega)
  rw [← hnew] at hC hclosed
  -- completeness: every vertex is discovered, by induction on its depth
  have hall : ∀ d v, v < g.nodeCount → dep v = d → Vis (LCA.new g r) v := by
    intro d
    induction d using Nat.strong_induction_on with
    | _ d ih =>
      intro v hv hd
      by_cases hvr : v = r
      · subst hvr
        exact hC.vis_root
      · have hdpos : dep v = dep (par v) + 1 := hT.dep_par hv hvr
        have hp : par v < g.nodeCount := hT.par_lt hv hvr
        have hpv : Vis (LCA.new g r) (par v) :=
          ih (dep (par v)) (by omega) (par v) hp rfl
        exact hclosed (par v) hp hpv v (hT.par_adj hv hvr)
  refine ⟨hC.depth_len, hC.jt_len, hC.row_len, ?_, ?_⟩
  · intro v hv
    exact hC.vis_depth v hv (hall (dep v) v hv rfl)
  · intro i hi v hv
    exact hC.vis_col v hv (hall (dep v) v hv rfl) i hi

/-! ### Query phase -/

/-- Splitting off the `i`-th bit of `k % 2 ^ (i + 1)`. -/
theorem mod_two_pow_succ_split (k i : Nat) :
    k % 2 ^ (i + 1) = (if k.testBit i then 2 ^ i else 0) + k % 2 ^ i := by
  have h1 : k % 2 ^ (i + 1) = k % 2 ^ i + 2 ^ i * (k / 2 ^ i % 2) := by
    rw [Nat.pow_succ]
    exact Nat.mod_mul
  rw [Nat.testBit_to_div_mod]
  rcases Nat.mod_two_eq_zero_or_one (k / 2 ^ i) with h | h
  · rw [h] at h1
    simp only [h, decide_eq_true_eq]
    rw [if_neg (by omega)]
    omega
  · rw [h] at h1
    simp only [h, decide_eq_true_eq]
    rw [if_pos trivial]
    omega

/-- The source's bit test `(k & (1 << i)) != 0` is `k.testBit i`. -/
theorem and_one_shift_ne_zero (k i : Nat) :
    k &&& (1 <<< i) ≠ 0 ↔ k.testBit i := by
  rw [Nat.one_shiftLeft, Nat.and_two_pow]
  have hp : 0 < 2 ^ i := Nat.pos_pow_of_pos i (by omega)
  cases h : k.testBit i
  · simp
  · simp only [Bool.toNat_true, one_mul, ne_eq]
    constructor
    · intro _
      trivial
    · intro _
      omega

theorem jumpGo_nil {t : LCA} {k u : Nat} : LCA.jumpGo t k u [] = some u := rfl

theorem jumpGo_cons {t : LCA} {k u i : Nat} {is : List Nat} :
    LCA.jumpGo t k u (i :: is) =
      if u ≠ USIZE_MAX ∧ k &&& (1 <<< i) ≠ 0 then
        (jtRead t.jump_table i u).bind fun u' => LCA.jumpGo t k u' is
      else LCA.jumpGo t k u is := rfl

/-- In-range depth reads of a fully built table. -/
theorem table_readV_depth {g : UnGraph} {r : Nat} {par dep : Nat → Nat}
    {t : LCA} (hS : TableSpec g r par dep t) {v : Nat} (hv : v < g.nodeCount) :
    readV t.depth v = some (dep v) := by
  show t.depth.get? v = some (dep v)
  rw [listGet?_eq_some_getD t.depth v 0 (by rw [hS.1]; exact hv)]
  rw [show t.depth.getD v 0 = depget t v from rfl, hS.2.2.2.1 v hv]

/-- In-range jump-table reads of a fully built table. -/
theorem table_jtRead {g : UnGraph} {r : Nat} {par dep : Nat → Nat}
    {t : LCA} (hS : TableSpec g r par dep t) {i v : Nat}
    (hi : i < LCA.log2 g.nodeCount) (hv : v < g.nodeCount) :
    jtRead t.jump_table i v = some (colSpec par dep v i) := by
  show (t.jump_table.get? i).bind _ = _
  rw [listGet?_eq_some_getD t.jump_table i [] (by rw [hS.2.1]; exact hi)]
  rw [Option.some_bind]
  rw [listGet?_eq_some_getD _ v 0 (by rw [hS.2.2.1 i hi]; exact hv)]
  rw [show (t.jump_table.getD i []).getD v 0 = jtget t i v from rfl]
  rw [hS.2.2.2.2 i hi v hv]

/-- Correctness of the loop of `LCA::jump`: processing the levels
`j-1, ..., 0` moves `w` up by `k mod 2^j` steps. -/
theorem jumpGo_spec {g : UnGraph} {r : Nat} {par dep : Nat → Nat} {t : LCA}
    (hS : TableSpec g r par dep t) (hT : IsRootedTree g r par dep)
    (hn : g.nodeCount ≤ USIZE_MAX) :
    ∀ j w k, j ≤ LCA.log2 g.nodeCount → w < g.nodeCount → k % 2 ^ j ≤ dep w →
      LCA.jumpGo t k w (List.range j).reverse = some (parIter par (k % 2 ^ j) w) := by
  intro j
  induction j with
  | zero =>
    intro w k _ _ _
    simp only [List.range_zero, List.reverse_nil, jumpGo_nil, pow_zero,
      Nat.mod_one]
    rfl
  | succ j ih =>
    intro w k hj hw hk
    have hrange : (List.range (j + 1)).reverse = j :: (List.range j).reverse := by
      rw [List.range_succ, List.reverse_append]
      rfl
    rw [hrange, jumpGo_cons]
    have hw_ne : w ≠ USIZE_MAX := ne_USIZE_MAX_of_lt hw hn
    have hmod := mod_two_pow_succ_split k j
    by_cases hbit : k.testBit j
    · rw [if_pos ⟨hw_ne, (and_one_shift_ne_zero k j).mpr hbit⟩]
      rw [if_pos hbit] at hmod
      have h2j : 2 ^ j ≤ dep w := by omega
      rw [table_jtRead hS (by omega) hw, Option.some_bind]
      rw [colSpec, if_pos h2j]
      have hw' : parIter par (2 ^ j) w < g.nodeCount := hT.parIter_lt hw h2j
      have hdw' : dep (parIter par (2 ^ j) w) = dep w - 2 ^ j := hT.dep_parIter hw h2j
      rw [ih (parIter par (2 ^ j) w) k (by omega) hw' (by omega)]
      rw [← parIter_add]
      have : k % 2 ^ j + 2 ^ j = k % 2 ^ (j + 1) := by omega
      rw [this]
    · rw [if_neg (by
        rintro ⟨_, hb⟩
        exact hbit ((and_one_shift_ne_zero k j).mp hb))]
      rw [if_neg hbit] at hmod
      rw [ih w k (by omega) hw (by omega)]
      have : k % 2 ^ j = k % 2 ^ (j + 1) := by omega
      rw [this]

/-- Evaluating `LCA::jump(u, k)` on a built table returns the `k`-th ancestor whenever
`k ≤ depth[u]` (so the equalization jumps of `LCA::lca` never fail and never
meet the sentinel). -/
theorem jump_spec {g : UnGraph} {r : Nat} {par dep : Nat → Nat} {t : LCA}
    (hS : TableSpec g r par dep t) (hT : IsRootedTree g r par dep)
    (hn : g.nodeCount ≤ USIZE_MAX) {u k : Nat} (hu : u < g.nodeCount)
    (hk : k ≤ dep u) :
    t.jump u k = some (parIter par k u) := by
  show LCA.jumpGo t k u (List.range t.jump_table.length).reverse = _
  rw [hS.2.1]
  have hklt : k < 2 ^ LCA.log2 g.nodeCount := by
    have h1 := hT.dep_lt hu
    have h2 := log2_ge g.nodeCount
    omega
  have := jumpGo_spec hS hT hn (LCA.log2 g.nodeCount) u k (Nat.le_refl _) hu
    (by rw [Nat.mod_eq_of_lt hklt]; exact hk)
  rw [Nat.mod_eq_of_lt hklt] at this
  exact this

theorem lcaGo_nil {t : LCA} {u v : Nat} : LCA.lcaGo t u v [] = some (u, v) := rfl

theorem lcaGo_cons {t : LCA} {u v i : Nat} {is : List Nat} :
    LCA.lcaGo t u v (i :: is) =
      (jtRead t.jump_table i u).bind fun pu =>
      (jtRead t.jump_table i v).bind fun pv =>
      if pu ≠ USIZE_MAX ∧ pv ≠ USIZE_MAX ∧ pu ≠ pv then LCA.lcaGo t pu pv is
      else LCA.lcaGo t u v is := rfl

/-- Correctness of the binary-search loop of `LCA::lca`.  `u` and `v` are
distinct vertices at equal depth whose common ancestor `a` steps up is `L`,
with no common ancestor strictly below `L` (`a` minimal); processing the
levels `j-1, ..., 0` with `a ≤ 2^j` converges to the two children of `L`. -/
theorem lcaGo_spec {g : UnGraph} {r : Nat} {par dep : Nat → Nat} {t : LCA}
    (hS : TableSpec g r par dep t) (hT : IsRootedTree g r par dep)
    (hn : g.nodeCount ≤ USIZE_MAX) {L : Nat} :
    ∀ j u v a, j ≤ LCA.log2 g.nodeCount → u < g.nodeCount → v < g.nodeCount →
      dep u = dep v → 1 ≤ a → a ≤ 2 ^ j → a ≤ dep u →
      parIter par a u = L → parIter par a v = L →
      (∀ b, b < a → parIter par b u ≠ parIter par b v) →
      ∃ u' v', LCA.lcaGo t u v (List.range j).reverse = some (u', v') ∧
        u' < g.nodeCount ∧ v' < g.nodeCount ∧ 1 ≤ dep u' ∧
        par u' = L ∧ par v' = L := by
  intro j
  induction j with
  | zero =>
    intro u v a _ hu hv _ ha1 ha2 had hpu hpv _
    have ha : a = 1 := by
      have : (2 : Nat) ^ 0 = 1 := pow_zero 2
      omega
    subst ha
    simp only [List.range_zero, List.reverse_nil, lcaGo_nil]
    exact ⟨u, v, rfl, hu, hv, had, hpu, hpv⟩
  | succ j ih =>
    intro u v a hj hu hv hdeq ha1 ha2 had hpu hpv hmin
    have hrange : (List.range (j + 1)).reverse = j :: (List.range j).reverse := by
      rw [List.range_succ, List.reverse_append]
      rfl
    rw [hrange, lcaGo_cons]
    rw [table_jtRead hS (by omega) hu, Option.some_bind]
    rw [table_jtRead hS (by omega) hv, Option.some_bind]
    by_cases hcase : 2 ^ j ≤ dep u
    · have hcv : 2 ^ j ≤ dep v := by omega
      rw [colSpec, if_pos hcase, colSpec, if_pos hcv]
      have hpun : parIter par (2 ^ j) u < g.nodeCount := hT.parIter_lt hu hcase
      have hpvn : parIter par (2 ^ j) v < g.nodeCount := hT.parIter_lt hv hcv
      by_cases hav : a ≤ 2 ^ j
      · -- the `2^j` ancestors coincide: skip
        have heq : parIter par (2 ^ j) u = parIter par (2 ^ j) v := by
          have h1 : (2 ^ j - a) + a = 2 ^ j := by omega
          rw [← h1, parIter_add, parIter_add, hpu, hpv]
        rw [if_neg (by
          rintro ⟨_, _, hne⟩
          exact hne heq)]
        exact ih u v a (by omega) hu hv hdeq ha1 hav had hpu hpv hmin
      · -- both jumps stay strictly below `L`: advance
        have hne : parIter par (2 ^ j) u ≠ parIter par (2 ^ j) v :=
          hmin (2 ^ j) (by omega)
        rw [if_pos ⟨ne_USIZE_MAX_of_lt hpun hn, ne_USIZE_MAX_of_lt hpvn hn, hne⟩]
        have hdu' : dep (parIter par (2 ^ j) u) = dep u - 2 ^ j :=
          hT.dep_parIter hu hcase
        have hdv' : dep (parIter par (2 ^ j) v) = dep v - 2 ^ j :=
          hT.dep_parIter hv hcv
        have hstep : ∀ b, parIter par b (parIter par (2 ^ j) u) =
            parIter par (b + 2 ^ j) u := by
          intro b
          rw [parIter_add]
        have hstepv : ∀ b, parIter par b (parIter par (2 ^ j) v) =
            parIter par (b + 2 ^ j) v := by
          intro b
          rw [parIter_add]
        apply ih (parIter par (2 ^ j) u) (parIter par (2 ^ j) v) (a - 2 ^ j)
          (by omega) hpun hpvn (by omega) (by omega)
          (by rw [Nat.pow_succ] at ha2; omega) (by omega)
        · rw [hstep, show a - 2 ^ j + 2 ^ j = a by omega]
          exact hpu
        · rw [hstepv, show a - 2 ^ j + 2 ^ j = a by omega]
          exact hpv
        · intro b hb
          rw [hstep, hstepv]
          exact hmin (b + 2 ^ j) (by omega)
    · -- `2^j` overshoots the root from both: sentinel, skip
      rw [colSpec, if_neg hcase, colSpec, if_neg (by omega)]
      exact ih u v a (by omega) hu hv hdeq ha1 (by omega) had hpu hpv hmin

/-- Holds when `w` lies on the root-to-`v` path of the tree: it is reached from `v` by
at most `dep v` parent steps. -/
def IsAncestor (par dep : Nat → Nat) (w v : Nat) : Prop :=
  ∃ k, k ≤ dep v ∧ parIter par k v = w

/-- Holds when `w` is the lowest common ancestor of `u` and `v`: it lies on both
root-to-vertex paths and has maximal depth among all vertices that do. -/
def IsLca (par dep : Nat → Nat) (w u v : Nat) : Prop :=
  IsAncestor par dep w u ∧ IsAncestor par dep w v ∧
  ∀ x, IsAncestor par dep x u → IsAncestor par dep x v → dep x ≤ dep w

/-- The tail of `LCA::lca` after depth equalization, on any equalized pair
`(u1, v1)` of ancestors of `(u, v)`: it returns the lowest common ancestor
of `u` and `v`. -/
theorem lca_post_spec {g : UnGraph} {r : Nat} {par dep : Nat → Nat} {t : LCA}
    (hS : TableSpec g r par dep t) (hT : IsRootedTree g r par dep)
    (hn : g.nodeCount ≤ USIZE_MAX)
    {u v u1 v1 : Nat} (hu : u < g.nodeCount) (hv : v < g.nodeCount)
    (hu1 : u1 < g.nodeCount) (hv1 : v1 < g.nodeCount)
    (hdeq : dep u1 = dep v1)
    (hdu1 : dep u1 ≤ dep u) (hdv1 : dep u1 ≤ dep v)
    (hanc_u : parIter par (dep u - dep u1) u = u1)
    (hanc_v : parIter par (dep v - dep u1) v = v1)
    (hd_min : dep u1 = dep u ∨ dep u1 = dep v) :
    ∃ w, (if u1 = v1 then some u1
          else (LCA.lcaGo t u1 v1 (List.range t.jump_table.length).reverse).bind
            fun p => jtRead t.jump_table 0 p.1) = some w ∧
      w < g.nodeCount ∧ IsLca par dep w u v := by
  have hEx : ∃ b, parIter par b u1 = parIter par b v1 := by
    refine ⟨dep u1, ?_⟩
    rw [hT.parIter_dep_eq_root hu1, hdeq, hT.parIter_dep_eq_root hv1]
  have ha := Nat.find_spec hEx
  have hfmin : ∀ b, b < Nat.find hEx → parIter par b u1 ≠ parIter par b v1 :=
    fun b hb => Nat.find_min hEx hb
  have ha_le : Nat.find hEx ≤ dep u1 := by
    apply Nat.find_min'
    rw [hT.parIter_dep_eq_root hu1, hdeq, hT.parIter_dep_eq_root hv1]
  -- any common ancestor of `u` and `v` is at least `Nat.find hEx` above `u1`
  have hmax : ∀ x, IsAncestor par dep x u → IsAncestor par dep x v →
      dep x ≤ dep u1 - Nat.find hEx := by
    rintro x ⟨k1, hk1, he1⟩ ⟨k2, hk2, he2⟩
    have hdx1 : dep x = dep u - k1 := by
      rw [← he1]
      exact hT.dep_parIter hu hk1
    have hdx2 : dep x = dep v - k2 := by
      rw [← he2]
      exact hT.dep_parIter hv hk2
    have hxd : dep x ≤ dep u1 := by
      rcases hd_min with h | h <;> omega
    have hb1 : parIter par (dep u1 - dep x) u1 = x := by
      have hcomp : parIter par ((dep u1 - dep x) + (dep u - dep u1)) u =
          parIter par (dep u1 - dep x) u1 := by
        rw [parIter_add, hanc_u]
      have hk1' : k1 = (dep u1 - dep x) + (dep u - dep u1) := by omega
      rw [← hcomp, ← hk1', he1]
    have hb2 : parIter par (dep u1 - dep x) v1 = x := by
      have hcomp : parIter par ((dep u1 - dep x) + (dep v - dep u1)) v =
          parIter par (dep u1 - dep x) v1 := by
        rw [parIter_add, hanc_v]
      have hk2' : k2 = (dep u1 - dep x) + (dep v - dep u1) := by omega
      rw [← hcomp, ← hk2', he2]
    have : ¬ (dep u1 - dep x) < Nat.find hEx := by
      intro hlt
      exact hfmin _ hlt (hb1.trans hb2.symm)
    omega
  by_cases ha0 : Nat.find hEx = 0
  · -- one vertex was an ancestor of the other: they met after equalization
    have heq : u1 = v1 := by
      have := ha
      rw [ha0] at this
      exact this
    rw [if_pos heq]
    refine ⟨u1, rfl, hu1, ⟨dep u - dep u1, by omega, hanc_u⟩,
      ⟨dep v - dep u1, by omega, heq ▸ hanc_v⟩, ?_⟩
    intro x hxu hxv
    have := hmax x hxu hxv
    omega
  · -- distinct at equal depth: binary search converges to children of the LCA
    have hne : u1 ≠ v1 := by
      intro he
      exact hfmin 0 (by omega) (by rw [he])
    rw [if_neg hne]
    have hdlt : dep u1 < g.nodeCount := hT.dep_lt hu1
    have h2 := log2_ge g.nodeCount
    obtain ⟨u', v', heqGo, hu'n, hv'n, hdep1', hparu, hparv⟩ :=
      lcaGo_spec hS hT hn
        (LCA.log2 g.nodeCount) u1 v1 (Nat.find hEx) (Nat.le_refl _) hu1 hv1 hdeq
        (by omega) (by omega) ha_le rfl ha.symm hfmin
    rw [hS.2.1, heqGo, Option.some_bind]
    have hu'r : u' ≠ r := by
      intro he
      rw [he, hT.dep_root] at hdep1'
      omega
    have hlog_pos : 0 < LCA.log2 g.nodeCount := by
      by_contra hc
      have hz : LCA.log2 g.nodeCount = 0 := by omega
      rw [hz, pow_zero] at h2
      have := hT.root_lt
      omega
    rw [table_jtRead hS hlog_pos hu'n]
    rw [colSpec, if_pos (by rw [pow_zero]; exact hdep1'), pow_zero, parIter_one,
      hparu]
    have hL_lt : parIter par (Nat.find hEx) u1 < g.nodeCount :=
      hT.parIter_lt hu1 ha_le
    have hL_dep : dep (parIter par (Nat.find hEx) u1) = dep u1 - Nat.find hEx :=
      hT.dep_parIter hu1 ha_le
    refine ⟨_, rfl, hL_lt, ?_, ?_, ?_⟩
    · refine ⟨Nat.find hEx + (dep u - dep u1), by omega, ?_⟩
      rw [parIter_add, hanc_u]
    · refine ⟨Nat.find hEx + (dep v - dep u1), by omega, ?_⟩
      rw [parIter_add, hanc_v, ha]
    · intro x hxu hxv
      have := hmax x hxu hxv
      omega

/-- Full functional correctness of `LCA::lca` on a built table: for in-range
`u, v` the query succeeds and returns the lowest common ancestor. -/
theorem lca_table_spec {g : UnGraph} {r : Nat} {par dep : Nat → Nat} {t : LCA}
    (hS : TableSpec g r par dep t) (hT : IsRootedTree g r par dep)
    (hn : g.nodeCount ≤ USIZE_MAX)
    {u v : Nat} (hu : u < g.nodeCount) (hv : v < g.nodeCount) :
    ∃ w, t.lca u v = some w ∧ w < g.nodeCount ∧ IsLca par dep w u v := by
  unfold LCA.lca
  rw [table_readV_depth hS hu, Option.some_bind, table_readV_depth hS hv,
    Option.some_bind]
  by_cases hdlt : dep u < dep v
  · -- `v` is deeper: it is lifted to the depth of `u`
    rw [if_pos hdlt, jump_spec hS hT hn hv (by omega), Option.some_bind]
    have hv1n : parIter par (dep v - dep u) v < g.nodeCount :=
      hT.parIter_lt hv (by omega)
    have hv1d : dep (parIter par (dep v - dep u) v) = dep u := by
      rw [hT.dep_parIter hv (by omega)]
      omega
    rw [Option.some_bind, table_readV_depth hS hv1n, Option.some_bind, hv1d,
      if_neg (by omega), Option.some_bind]
    exact lca_post_spec hS hT hn hu hv hu hv1n hv1d.symm (by omega) (by omega)
      (by rw [Nat.sub_self]; rfl) rfl (Or.inl rfl)
  · rw [if_neg hdlt, Option.some_bind, Option.some_bind,
      table_readV_depth hS hv, Option.some_bind]
    by_cases hdgt : dep u > dep v
    · -- `u` is deeper: it is lifted to the depth of `v`
      rw [if_pos hdgt, jump_spec hS hT hn hu (by omega), Option.some_bind]
      have hu1n : parIter par (dep u - dep v) u < g.nodeCount :=
        hT.parIter_lt hu (by omega)
      have hu1d : dep (parIter par (dep u - dep v) u) = dep v := by
        rw [hT.dep_parIter hu (by omega)]
        omega
      apply lca_post_spec hS hT hn hu hv hu1n hv hu1d (by omega) (by omega)
      · rw [hu1d]
      · simp [hu1d, parIter]
      · exact Or.inr hu1d
    · -- equal depths already
      have hdeq : dep u = dep v := by omega
      rw [if_neg hdgt, Option.some_bind]
      exact lca_post_spec hS hT hn hu hv hu hv hdeq (by omega) (by omega)
        (by rw [Nat.sub_self]; rfl) (by rw [hdeq, Nat.sub_self]; rfl)
        (Or.inl rfl)

/-- Ancestors are at most as deep as the vertex itself. -/
theorem isAncestor_dep_le {g : UnGraph} {r : Nat} {par dep : Nat → Nat}
    (hT : IsRootedTree g r par dep) {x u : Nat} (hu : u < g.nodeCount)
    (hx : IsAncestor par dep x u) : dep x ≤ dep u := by
  obtain ⟨k, hk, he⟩ := hx
  have := hT.dep_parIter hu hk
  rw [he] at this
  omega

/-- The lowest common ancestor is unique. -/
theorem isLca_unique {g : UnGraph} {r : Nat} {par dep : Nat → Nat}
    (hT : IsRootedTree g r par dep) {u v w1 w2 : Nat} (hu : u < g.nodeCount)
    (h1 : IsLca par dep w1 u v) (h2 : IsLca par dep w2 u v) : w1 = w2 := by
  have hd1 : dep w1 ≤ dep w2 := h2.2.2 w1 h1.1 h1.2.1
  have hd2 : dep w2 ≤ dep w1 := h1.2.2 w2 h2.1 h2.2.1
  obtain ⟨k1, hk1, he1⟩ := h1.1
  obtain ⟨k2, hk2, he2⟩ := h2.1
  have e1 := hT.dep_parIter hu hk1
  have e2 := hT.dep_parIter hu hk2
  rw [he1] at e1
  rw [he2] at e2
  have : k1 = k2 := by omega
  rw [← he1, ← he2, this]

/-- Symmetry of `IsLca` in the two queried vertices. -/
theorem isLca_symm {par dep : Nat → Nat} {w u v : Nat}
    (h : IsLca par dep w u v) : IsLca par dep w v u :=
  ⟨h.2.1, h.1, fun x hxv hxu => h.2.2 x hxu hxv⟩

/-- Out-of-range queries read `depth` out of bounds: the embedded image of a
Rust index-out-of-bounds panic. -/
theorem lca_oob {t : LCA} {n : Nat} (hlen : t.depth.length = n) {u v : Nat}
    (h : n ≤ u ∨ n ≤ v) : t.lca u v = none := by
  unfold LCA.lca
  rcases h with hu | hv
  · have : readV t.depth u = none := by
      show t.depth.get? u = none
      rw [List.get?_eq_none]
      omega
    rw [this, Option.none_bind]
  · by_cases hu : u < n
    · rw [show readV t.depth u = some (t.depth.getD u 0) from
        listGet?_eq_some_getD t.depth u 0 (by omega), Option.some_bind]
      have : readV t.depth v = none := by
        show t.depth.get? v = none
        rw [List.get?_eq_none]
        omega
      rw [this, Option.none_bind]
    · have : readV t.depth u = none := by
        show t.depth.get? u = none
        rw [List.get?_eq_none]
        omega
      rw [this, Option.none_bind]

/-- Every member of a list is a `getD` at some in-range index. -/
theorem exists_getD_of_mem {α : Type} {l : List α} {x : α} (d : α)
    (h : x ∈ l) : ∃ i, i < l.length ∧ l.getD i d = x := by
  induction l with
  | nil => simp at h
  | cons y ys ih =>
    rcases List.mem_cons.mp h with rfl | h'
    · exact ⟨0, by simp, rfl⟩
    · obtain ⟨i, hi, he⟩ := ih h'
      exact ⟨i + 1, by simp; omega, he⟩

/-- Shifting a correct jump-table entry one level up: the `2^i`-ancestor of
the `2^i`-ancestor is the `2^(i+1)`-ancestor (with sentinel propagation). -/
theorem colSpec_shift {g : UnGraph} {r : Nat} {par dep : Nat → Nat}
    (hT : IsRootedTree g r par dep) {v i : Nat} (hv : v < g.nodeCount)
    (hca : 2 ^ i ≤ dep v) :
    colSpec par dep (parIter par (2 ^ i) v) i = colSpec par dep v (i + 1) := by
  have ha_dep : dep (parIter par (2 ^ i) v) = dep v - 2 ^ i :=
    hT.dep_parIter hv hca
  have hpow : (2 : Nat) ^ (i + 1) = 2 ^ i + 2 ^ i := by
    rw [Nat.pow_succ]; omega
  unfold colSpec
  rw [ha_dep, ← parIter_add par (2 ^ i) (2 ^ i) v, ← hpow]
  by_cases hcb : 2 ^ (i + 1) ≤ dep v
  · rw [if_pos (by omega), if_pos hcb]
  · rw [if_neg (by omega), if_neg hcb]

/-! ### Claim theorems -/

instance instDecIsRootedTree (g : UnGraph) (r : Nat) (par dep : Nat → Nat) :
    Decidable (IsRootedTree g r par dep) := by
  unfold IsRootedTree
  infer_instance

/-- The tree of the repository's unit test: edges
`0-1, 0-2, 1-3, 1-4, 2-5, 2-6`, rooted at `0`. -/
def g7 : UnGraph := ⟨[[1, 2], [0, 3, 4], [0, 5, 6], [1], [1], [2], [2]]⟩

/-- Parent function of `g7` rooted at `0`. -/
def par7 : Nat → Nat := fun v => [0, 0, 0, 1, 1, 2, 2].getD v 0

/-- Depth function of `g7` rooted at `0`. -/
def dep7 : Nat → Nat := fun v => [0, 1, 1, 2, 2, 2, 2].getD v 0

/-- Two isolated vertices: a malformed (disconnected) input. -/
def g2disc : UnGraph := ⟨[[], []]⟩

/-- The two-vertex path `0 - 1`. -/
def gPath2 : UnGraph := ⟨[[1], [0]]⟩

/-- Parent function of `gPath2` rooted at `0`. -/
def parP2 : Nat → Nat := fun v => [0, 0].getD v 0

/-- Depth function of `gPath2` rooted at `0`. -/
def depP2 : Nat → Nat := fun v => [0, 1].getD v 0

/-- The single-vertex tree. -/
def g1 : UnGraph := ⟨[[]]⟩

/-- C1: for every table built by `LCA::new` from a connected, acyclic,
undirected tree on `n ≥ 1` vertices with a valid root and all vertices
`u, v < n`, `LCA::lca(u, v)` succeeds and returns the lowest common
ancestor of `u` and `v`: a vertex on the root-to-`u` path and on the
root-to-`v` path whose depth is maximal among all such common ancestors;
hence its depth is at most `min (depth u) (depth v)`. -/
theorem lca_returns_lowest_common_ancestor
    (g : UnGraph) (r : Nat) (par dep : Nat → Nat)
    (hT : IsRootedTree g r par dep) (hn : g.nodeCount ≤ USIZE_MAX)
    (u v : Nat) (hu : u < g.nodeCount) (hv : v < g.nodeCount) :
    ∃ w, (LCA.new g r).lca u v = some w ∧
      IsAncestor par dep w u ∧ IsAncestor par dep w v ∧
      (∀ x, IsAncestor par dep x u → IsAncestor par dep x v → dep x ≤ dep w) ∧
      dep w ≤ min (dep u) (dep v) := by
  obtain ⟨w, he, hwn, hL⟩ := lca_table_spec (new_spec hT hn) hT hn hu hv
  refine ⟨w, he, hL.1, hL.2.1, hL.2.2, ?_⟩
  have b1 := isAncestor_dep_le hT hu hL.1
  have b2 := isAncestor_dep_le hT hv hL.2.1
  omega

/-- Witness for C1 on the repository's test tree: `lca 3 5 = 0`. -/
theorem lca_returns_lowest_common_ancestor_witness :
    IsRootedTree g7 0 par7 dep7 ∧ g7.nodeCount ≤ USIZE_MAX ∧
    3 < g7.nodeCount ∧ 5 < g7.nodeCount ∧
    (∃ w, (LCA.new g7 0).lca 3 5 = some w ∧
      IsAncestor par7 dep7 w 3 ∧ IsAncestor par7 dep7 w 5 ∧
      (∀ x, IsAncestor par7 dep7 x 3 → IsAncestor par7 dep7 x 5 →
        dep7 x ≤ dep7 w) ∧
      dep7 w ≤ min (dep7 3) (dep7 5)) :=
  ⟨by decide, by decide, by decide, by decide,
    lca_returns_lowest_common_ancestor g7 0 par7 dep7 (by decide) (by decide)
      3 5 (by decide) (by decide)⟩

/-- C2 (divergence witness): `LCA::new` on a disconnected input (two
vertices, no edges, root `0`) silently returns a usable table whose unset
entries hold the sentinel `usize::MAX`, and queries answer from it — the
construction does not fail with `MalformedTree` (nor any other error). -/
theorem new_silent_on_disconnected :
    (LCA.new g2disc 0).depth = [0, USIZE_MAX] ∧
    (LCA.new g2disc 0).jump_table = [[USIZE_MAX, USIZE_MAX]] ∧
    (LCA.new g2disc 0).lca 1 1 = some 1 := by
  refine ⟨by decide, by decide, by decide⟩

/-- C3: in every built table, level `0` holds the direct parent (sentinel
for the root), level `i` holds the ancestor `2^i` steps above `v` when `v`
has at least `2^i` proper ancestors (`2^i ≤ depth v`) and the sentinel
otherwise, and consecutive levels satisfy the doubling recurrence
`jump_table[i][v] = jump_table[i-1][jump_table[i-1][v]]` with the sentinel
propagating. -/
theorem jump_table_entries_correct
    (g : UnGraph) (r : Nat) (par dep : Nat → Nat)
    (hT : IsRootedTree g r par dep) (hn : g.nodeCount ≤ USIZE_MAX) :
    (0 < LCA.log2 g.nodeCount → ∀ v, v < g.nodeCount →
      jtget (LCA.new g r) 0 v = if v = r then USIZE_MAX else par v) ∧
    (∀ i, i < LCA.log2 g.nodeCount → ∀ v, v < g.nodeCount →
      jtget (LCA.new g r) i v =
        if 2 ^ i ≤ dep v then parIter par (2 ^ i) v else USIZE_MAX) ∧
    (∀ i, 1 ≤ i → i < LCA.log2 g.nodeCount → ∀ v, v < g.nodeCount →
      jtget (LCA.new g r) i v =
        if jtget (LCA.new g r) (i - 1) v = USIZE_MAX then USIZE_MAX
        else jtget (LCA.new g r) (i - 1) (jtget (LCA.new g r) (i - 1) v)) := by
  have hS := new_spec hT hn
  have hcol : ∀ i, i < LCA.log2 g.nodeCount → ∀ v, v < g.nodeCount →
      jtget (LCA.new g r) i v = colSpec par dep v i := hS.2.2.2.2
  refine ⟨?_, ?_, ?_⟩
  · intro hpos v hv
    rw [hcol 0 hpos v hv, colSpec]
    by_cases hvr : v = r
    · subst hvr
      rw [hT.dep_root, if_neg (by omega), if_pos rfl]
    · have hd := hT.dep_par hv hvr
      rw [if_pos (by rw [pow_zero]; omega), if_neg hvr, pow_zero, parIter_one]
  · intro i hi v hv
    rw [hcol i hi v hv, colSpec]
  · intro i h1 hi v hv
    obtain ⟨j, rfl⟩ : ∃ j, i = j + 1 := ⟨i - 1, by omega⟩
    simp only [Nat.add_sub_cancel]
    rw [hcol (j + 1) hi v hv, hcol j (by omega) v hv]
    by_cases hca : 2 ^ j ≤ dep v
    · have ha_lt := hT.parIter_lt hv hca
      rw [show colSpec par dep v j = parIter par (2 ^ j) v from
        by rw [colSpec, if_pos hca]]
      rw [if_neg (ne_USIZE_MAX_of_lt ha_lt hn)]
      rw [hcol j (by omega) _ ha_lt]
      exact (colSpec_shift hT hv hca).symm
    · rw [show colSpec par dep v j = USIZE_MAX from by rw [colSpec, if_neg hca]]
      rw [if_pos rfl, colSpec, if_neg (by
        have : (2 : Nat) ^ j ≤ 2 ^ (j + 1) :=
          Nat.pow_le_pow_right (by omega) (by omega)
        omega)]

/-- Witness for C3 on the test tree (it has `log2 7 = 3` levels). -/
theorem jump_table_entries_correct_witness :
    IsRootedTree g7 0 par7 dep7 ∧ g7.nodeCount ≤ USIZE_MAX ∧
    ((0 < LCA.log2 g7.nodeCount → ∀ v, v < g7.nodeCount →
      jtget (LCA.new g7 0) 0 v = if v = 0 then USIZE_MAX else par7 v) ∧
    (∀ i, i < LCA.log2 g7.nodeCount → ∀ v, v < g7.nodeCount →
      jtget (LCA.new g7 0) i v =
        if 2 ^ i ≤ dep7 v then parIter par7 (2 ^ i) v else USIZE_MAX) ∧
    (∀ i, 1 ≤ i → i < LCA.log2 g7.nodeCount → ∀ v, v < g7.nodeCount →
      jtget (LCA.new g7 0) i v =
        if jtget (LCA.new g7 0) (i - 1) v = USIZE_MAX then USIZE_MAX
        else jtget (LCA.new g7 0) (i - 1) (jtget (LCA.new g7 0) (i - 1) v))) :=
  ⟨by decide, by decide,
    jump_table_entries_correct g7 0 par7 dep7 (by decide) (by decide)⟩

/-- C4: in every built table, `depth[root] = 0` and every non-root vertex
`v` satisfies `depth[v] = depth[parent v] + 1`, where `parent v` is the BFS
discoverer `jump_table[0][v]`. -/
theorem depth_satisfies_recurrence
    (g : UnGraph) (r : Nat) (par dep : Nat → Nat)
    (hT : IsRootedTree g r par dep) (hn : g.nodeCount ≤ USIZE_MAX) :
    depget (LCA.new g r) r = 0 ∧
    (∀ v, v < g.nodeCount → v ≠ r →
      jtget (LCA.new g r) 0 v = par v ∧
      depget (LCA.new g r) v =
        depget (LCA.new g r) (jtget (LCA.new g r) 0 v) + 1) := by
  have hS := new_spec hT hn
  constructor
  · rw [hS.2.2.2.1 r hT.root_lt, hT.dep_root]
  · intro v hv hvr
    have hd := hT.dep_par hv hvr
    have hn2 : 2 ≤ g.nodeCount := by
      have h1 := hT.root_lt
      omega
    have hpos : 0 < LCA.log2 g.nodeCount := by
      by_contra hc
      have hz : LCA.log2 g.nodeCount = 0 := by omega
      have := log2_ge g.nodeCount
      rw [hz, pow_zero] at this
      omega
    have hjt : jtget (LCA.new g r) 0 v = par v := by
      rw [hS.2.2.2.2 0 hpos v hv, colSpec, if_pos (by rw [pow_zero]; omega),
        pow_zero, parIter_one]
    refine ⟨hjt, ?_⟩
    rw [hjt, hS.2.2.2.1 v hv, hS.2.2.2.1 (par v) (hT.par_lt hv hvr)]
    omega

/-- Witness for C4 on the test tree at `v = 5`. -/
theorem depth_satisfies_recurrence_witness :
    IsRootedTree g7 0 par7 dep7 ∧ g7.nodeCount ≤ USIZE_MAX ∧
    (depget (LCA.new g7 0) 0 = 0 ∧
    (∀ v, v < g7.nodeCount → v ≠ 0 →
      jtget (LCA.new g7 0) 0 v = par7 v ∧
      depget (LCA.new g7 0) v =
        depget (LCA.new g7 0) (jtget (LCA.new g7 0) 0 v) + 1)) :=
  ⟨by decide, by decide,
    depth_satisfies_recurrence g7 0 par7 dep7 (by decide) (by decide)⟩

/-- C5 (counterexample): on the two-vertex path, the query `lca(2, 0)` with
`u = 2` out of `[0, n)` evaluates to the panic outcome (`none` embeds the
Rust index-out-of-bounds panic on `self.depth[u]`): the program aborts
rather than returning an `IndexOutOfRange` error value, so out-of-range
queries do not "fail with an IndexOutOfRange error as opposed to aborting".
No `IndexOutOfRange` value exists anywhere in `src/lca.rs`. -/
theorem lca_out_of_range_panic_concrete :
    (LCA.new gPath2 0).lca 2 0 = none ∧ (LCA.new gPath2 0).lca 0 2 = none := by
  refine ⟨by decide, by decide⟩

/-- C5 (amended): on every built table, a query with `u` or `v` outside
`[0, n)` aborts with an index-out-of-bounds panic (embedded as `none`),
and a query with both vertices in range completes without failure. -/
theorem lca_out_of_range_behaviour
    (g : UnGraph) (r : Nat) (par dep : Nat → Nat)
    (hT : IsRootedTree g r par dep) (hn : g.nodeCount ≤ USIZE_MAX) :
    (∀ u v, g.nodeCount ≤ u ∨ g.nodeCount ≤ v → (LCA.new g r).lca u v = none) ∧
    (∀ u v, u < g.nodeCount → v < g.nodeCount →
      ∃ w, (LCA.new g r).lca u v = some w) := by
  have hS := new_spec hT hn
  constructor
  · intro u v h
    exact lca_oob hS.1 h
  · intro u v hu hv
    obtain ⟨w, he, _, _⟩ := lca_table_spec hS hT hn hu hv
    exact ⟨w, he⟩

/-- Witness for the amended C5 on the test tree: `lca 9 0` panics,
`lca 1 6` answers. -/
theorem lca_out_of_range_behaviour_witness :
    IsRootedTree g7 0 par7 dep7 ∧ g7.nodeCount ≤ USIZE_MAX ∧
    ((∀ u v, g7.nodeCount ≤ u ∨ g7.nodeCount ≤ v →
      (LCA.new g7 0).lca u v = none) ∧
    (∀ u v, u < g7.nodeCount → v < g7.nodeCount →
      ∃ w, (LCA.new g7 0).lca u v = some w)) :=
  ⟨by decide, by decide,
    lca_out_of_range_behaviour g7 0 par7 dep7 (by decide) (by decide)⟩

/-- C6: the query is symmetric in its two arguments on every built table. -/
theorem lca_symmetric
    (g : UnGraph) (r : Nat) (par dep : Nat → Nat)
    (hT : IsRootedTree g r par dep) (hn : g.nodeCount ≤ USIZE_MAX)
    (u v : Nat) (hu : u < g.nodeCount) (hv : v < g.nodeCount) :
    (LCA.new g r).lca u v = (LCA.new g r).lca v u := by
  obtain ⟨w1, e1, hw1n, hL1⟩ := lca_table_spec (new_spec hT hn) hT hn hu hv
  obtain ⟨w2, e2, hw2n, hL2⟩ := lca_table_spec (new_spec hT hn) hT hn hv hu
  rw [e1, e2, isLca_unique hT hu hL1 (isLca_symm hL2)]

/-- Witness for C6 on the test tree at `(3, 6)`. -/
theorem lca_symmetric_witness :
    IsRootedTree g7 0 par7 dep7 ∧ g7.nodeCount ≤ USIZE_MAX ∧
    (LCA.new g7 0).lca 3 6 = (LCA.new g7 0).lca 6 3 :=
  ⟨by decide, by decide,
    lca_symmetric g7 0 par7 dep7 (by decide) (by decide) 3 6 (by decide)
      (by decide)⟩

/-- C7: on every built table, jumping `k ≤ depth[u]` steps up from a valid
vertex `u` (which covers the depth-equalization jumps of `LCA::lca`, whose
step count is `depth[deep] - depth[shallow] ≤ depth[deep]`) succeeds and
returns the valid ancestor `k` steps above `u`, never the sentinel.  Since
the sentinel is absorbing in `LCA::jump` (once `u = usize::MAX` every later
level is skipped), a non-sentinel result means no jump-table read along the
way returned the sentinel. -/
theorem jump_within_depth_never_sentinel
    (g : UnGraph) (r : Nat) (par dep : Nat → Nat)
    (hT : IsRootedTree g r par dep) (hn : g.nodeCount ≤ USIZE_MAX)
    (u k : Nat) (hu : u < g.nodeCount) (hk : k ≤ depget (LCA.new g r) u) :
    (LCA.new g r).jump u k = some (parIter par k u) ∧
    parIter par k u < g.nodeCount ∧ parIter par k u ≠ USIZE_MAX := by
  have hS := new_spec hT hn
  have hd : depget (LCA.new g r) u = dep u := hS.2.2.2.1 u hu
  rw [hd] at hk
  have h2 := hT.parIter_lt hu hk
  exact ⟨jump_spec hS hT hn hu hk, h2, ne_USIZE_MAX_of_lt h2 hn⟩

/-- Witness for C7 on the test tree: jumping `depth 6 - depth 1 = 1` step
from `6`. -/
theorem jump_within_depth_never_sentinel_witness :
    IsRootedTree g7 0 par7 dep7 ∧ g7.nodeCount ≤ USIZE_MAX ∧
    2 ≤ depget (LCA.new g7 0) 6 ∧
    ((LCA.new g7 0).jump 6 2 = some (parIter par7 2 6) ∧
      parIter par7 2 6 < g7.nodeCount ∧ parIter par7 2 6 ≠ USIZE_MAX) :=
  ⟨by decide, by decide, by decide,
    jump_within_depth_never_sentinel g7 0 par7 dep7 (by decide) (by decide)
      6 2 (by decide) (by decide)⟩

/-- C8: `lca(u, u) = u` on every built table; and the single-vertex tree
has `levels = 0`, an empty jump table, and `lca(0, 0) = 0` (trivially
without touching the empty jump table). -/
theorem lca_diagonal_and_singleton :
    (∀ (g : UnGraph) (r : Nat) (par dep : Nat → Nat),
      IsRootedTree g r par dep → g.nodeCount ≤ USIZE_MAX →
      ∀ u, u < g.nodeCount → (LCA.new g r).lca u u = some u) ∧
    LCA.log2 g1.nodeCount = 0 ∧
    (LCA.new g1 0).jump_table = [] ∧
    (LCA.new g1 0).lca 0 0 = some 0 := by
  refine ⟨?_, by decide, by decide, by decide⟩
  intro g r par dep hT hn u hu
  obtain ⟨w, he, hwn, hL⟩ := lca_table_spec (new_spec hT hn) hT hn hu hu
  have hLu : IsLca par dep u u u :=
    ⟨⟨0, by omega, rfl⟩, ⟨0, by omega, rfl⟩,
      fun x hx _ => isAncestor_dep_le hT hu hx⟩
  rw [he, isLca_unique hT hu hL hLu]

/-- Witness for C8 on the test tree at `u = 4`. -/
theorem lca_diagonal_and_singleton_witness :
    IsRootedTree g7 0 par7 dep7 ∧ g7.nodeCount ≤ USIZE_MAX ∧
    4 < g7.nodeCount ∧ (LCA.new g7 0).lca 4 4 = some 4 :=
  ⟨by decide, by decide, by decide,
    lca_diagonal_and_singleton.1 g7 0 par7 dep7 (by decide) (by decide) 4
      (by decide)⟩

/-- C9: `LCA::log2 n` is the least `c` with `2^c ≥ n` (that is,
`ceil(log2 n)` for `n ≥ 2`, and `0` for `n ≤ 1`), and the number of
jump-table levels of every built table equals it. -/
theorem levels_eq_ceil_log2 :
    (∀ n : Nat, n ≤ 2 ^ LCA.log2 n) ∧
    (∀ n c : Nat, n ≤ 2 ^ c → LCA.log2 n ≤ c) ∧
    (∀ n : Nat, n ≤ 1 → LCA.log2 n = 0) ∧
    (∀ (g : UnGraph) (r : Nat) (par dep : Nat → Nat),
      IsRootedTree g r par dep → g.nodeCount ≤ USIZE_MAX →
      (LCA.new g r).jump_table.length = LCA.log2 g.nodeCount) := by
  refine ⟨log2_ge, fun n c hc => log2_min n c hc, ?_, ?_⟩
  · intro n hn
    have h1 := log2_min n 0 (by rw [pow_zero]; omega)
    omega
  · intro g r par dep hT hn
    exact (new_spec hT hn).2.1

/-- Witness for C9: `log2 7 = 3` is least with `2^3 ≥ 7`, and the test
tree's table has `3` levels. -/
theorem levels_eq_ceil_log2_witness :
    (7 : Nat) ≤ 2 ^ 3 ∧ LCA.log2 7 ≤ 3 ∧ IsRootedTree g7 0 par7 dep7 ∧
    g7.nodeCount ≤ USIZE_MAX ∧
    (LCA.new g7 0).jump_table.length = LCA.log2 g7.nodeCount :=
  ⟨by decide, levels_eq_ceil_log2.2.1 7 3 (by decide), by decide, by decide,
    levels_eq_ceil_log2.2.2.2 g7 0 par7 dep7 (by decide) (by decide)⟩

/-- C10: in every built table, depth entries of valid vertices are valid
depths (`< n`, in particular not the sentinel), every jump-table entry is
the sentinel or a valid vertex index, and every in-range query completes
(all its `jump_table[i][x]` reads are in bounds). -/
theorem table_entries_bounded
    (g : UnGraph) (r : Nat) (par dep : Nat → Nat)
    (hT : IsRootedTree g r par dep) (hn : g.nodeCount ≤ USIZE_MAX) :
    (∀ d ∈ (LCA.new g r).depth, d < g.nodeCount) ∧
    (∀ d ∈ (LCA.new g r).depth, d = USIZE_MAX ∨ d < g.nodeCount) ∧
    (∀ row ∈ (LCA.new g r).jump_table, ∀ e ∈ row,
      e = USIZE_MAX ∨ e < g.nodeCount) ∧
    (∀ u v, u < g.nodeCount → v < g.nodeCount →
      ((LCA.new g r).lca u v).isSome) := by
  have hS := new_spec hT hn
  have hdep : ∀ d ∈ (LCA.new g r).depth, d < g.nodeCount := by
    intro d hd
    obtain ⟨i, hi, he⟩ := exists_getD_of_mem 0 hd
    rw [hS.1] at hi
    rw [← he]
    rw [show (LCA.new g r).depth.getD i 0 = depget (LCA.new g r) i from rfl]
    rw [hS.2.2.2.1 i hi]
    exact hT.dep_lt hi
  refine ⟨hdep, fun d hd => Or.inr (hdep d hd), ?_, ?_⟩
  · intro row hrow e he
    obtain ⟨j, hj, hej⟩ := exists_getD_of_mem [] hrow
    rw [hS.2.1] at hj
    obtain ⟨v, hv, hev⟩ := exists_getD_of_mem 0 he
    rw [← hej, hS.2.2.1 j hj] at hv
    rw [← hev, ← hej]
    rw [show ((LCA.new g r).jump_table.getD j []).getD v 0
      = jtget (LCA.new g r) j v from rfl]
    rw [hS.2.2.2.2 j hj v hv, colSpec]
    by_cases hca : 2 ^ j ≤ dep v
    · rw [if_pos hca]
      exact Or.inr (hT.parIter_lt hv hca)
    · rw [if_neg hca]
      exact Or.inl rfl
  · intro u v hu hv
    obtain ⟨w, he, _, _⟩ := lca_table_spec hS hT hn hu hv
    rw [he]
    rfl

/-- Witness for C10 on the test tree. -/
theorem table_entries_bounded_witness :
    IsRootedTree g7 0 par7 dep7 ∧ g7.nodeCount ≤ USIZE_MAX ∧
    ((∀ d ∈ (LCA.new g7 0).depth, d < g7.nodeCount) ∧
    (∀ d ∈ (LCA.new g7 0).depth, d = USIZE_MAX ∨ d < g7.nodeCount) ∧
    (∀ row ∈ (LCA.new g7 0).jump_table, ∀ e ∈ row,
      e = USIZE_MAX ∨ e < g7.nodeCount) ∧
    (∀ u v, u < g7.nodeCount → v < g7.nodeCount →
      ((LCA.new g7 0).lca u v).isSome)) :=
  ⟨by decide, by decide,
    table_entries_bounded g7 0 par7 dep7 (by decide) (by decide)⟩
